import Mathlib

/-!
Verification of the frontmatter field-index maintenance engine of the
properties-stats plugin (`src/main.ts`).

The development shallowly embeds the core of `EnhancedFrontmatterStatsPlugin`:
the value flattener (`flattenFrontmatter`), the cached field index
(`cache` / `lastUpdate`), its four incremental mutation paths
(`updateCacheForFile`, `updateCacheOnDelete`, `updateCacheOnRename`,
`updateCacheOnCreate` and their shared helper `addFileToCache`), the
read path `getFields` with its TTL policy and full-rebuild scan, and
`clearCache`.

Modelling conventions:
* A parsed frontmatter header is a `Fields` record (ordered key/value list,
  mirroring a JS object's insertion-ordered string keys); nested values are
  `Value`s.  `Fields`/`ValueList` are mutual with `Value` so that all
  recursion is structural and every definition evaluates.
* A `TFile` is identified by its `path` string; a document (`Doc`) is a path
  together with its currently parsed header (`none` = no frontmatter, as
  returned by `metadataCache.getFileCache`).  Only markdown documents are
  modelled: every handler in the source ignores non-`md` files outright, and
  `getMarkdownFiles` enumerates exactly the markdown documents.
* `Date.now()` is modelled by an explicit `now : Nat` (milliseconds) supplied
  to each operation; `cacheTTL` is in seconds and multiplied by 1000 exactly
  as in the source.
* The progress callback is modelled by a flag (`hasCallback`, whether the
  caller supplied one) plus the list of percentage arguments the rebuild
  passes to it, in call order (rationals, standing for the exact values of
  `(processedFiles / totalFiles) * 100`).
* `this.cache.map(...)`/`filter`/`find`/`push` on the mutable array become
  the corresponding pure list operations; mutating the record returned by
  `find` becomes rewriting the first matching list element (`mutateFirst`).
* `Array.prototype.sort` with comparator `(a, b) => b.count - a.count` is
  stable and sorts descending by `count`; it is modelled by a stable
  insertion sort with exactly that characterisation (proved below).
-/

namespace PropStats

/-! ## Frontmatter values and the flattener -/

mutual
/-- A frontmatter value as the host's YAML parser produces it: `null`, a
primitive (string / number / boolean), an array, or a nested object. -/
inductive Value where
  | vNull : Value
  | vStr (s : String) : Value
  | vNum (n : Int) : Value
  | vBool (b : Bool) : Value
  | vArr (elems : ValueList) : Value
  | vObj (fields : Fields) : Value
deriving DecidableEq

/-- A list of array elements. -/
inductive ValueList where
  | nil : ValueList
  | cons (v : Value) (rest : ValueList) : ValueList
deriving DecidableEq

/-- An insertion-ordered object record: the entries of a (nested)
frontmatter object, in `Object.entries` order. -/
inductive Fields where
  | nil : Fields
  | cons (key : String) (v : Value) (rest : Fields) : Fields
deriving DecidableEq
end

mutual
/-- `flattenFrontmatter(obj, prefix)` from `src/main.ts` (lines 226-240):
walks the entries in order; `fullKey` is `prefix ? prefix + "." + key : key`;
recurses when the value is a non-null, non-array object, otherwise emits the
`(fullKey, value)` leaf. -/
def flattenFrontmatter : Fields → String → List (String × Value)
  | Fields.nil, _ => []
  | Fields.cons key value rest, pre =>
    flattenEntryValue value (if pre = "" then key else pre ++ "." ++ key) ++
      flattenFrontmatter rest pre

/-- The body of `flattenFrontmatter`'s loop for one entry: the test
`typeof value === 'object' && value !== null && !Array.isArray(value)`
holds exactly for object values. -/
def flattenEntryValue : Value → String → List (String × Value)
  | Value.vObj fields, fullKey => flattenFrontmatter fields fullKey
  | v, fullKey => [(fullKey, v)]
end

/-! ## Settings, field records, documents -/

/-- `PluginSettings` from `src/main.ts`. -/
structure PluginSettings where
  pageSize : Nat
  ignoreFields : List String
  cacheTTL : Nat
  analyzeValues : Bool
  showProgress : Bool
deriving DecidableEq

/-- `DEFAULT_SETTINGS` from `src/main.ts`. -/
def DEFAULT_SETTINGS : PluginSettings :=
  { pageSize := 50, ignoreFields := [], cacheTTL := 600,
    analyzeValues := false, showProgress := true }

/-- The optional `valueStats` payload of a `FrontmatterField`. -/
structure ValueStats where
  unique : Nat
  topValues : List (String × Nat)
  typeDistribution : List (String × Nat)
deriving DecidableEq

/-- `FrontmatterField` from `src/main.ts`: one record per distinct flattened
field name; `files` holds owning documents by path, in discovery order. -/
structure FrontmatterField where
  name : String
  count : Nat
  files : List String
  valueStats : Option ValueStats
deriving DecidableEq

/-- A markdown document: its vault path and its parsed frontmatter as the
metadata cache currently reports it (`none` when `getFileCache(file)` has no
`frontmatter`). -/
structure Doc where
  path : String
  fm : Option Fields
deriving DecidableEq

/-- The vault's current markdown documents (`getMarkdownFiles()` order). -/
abbrev Vault := List Doc

/-- The plugin's mutable index state: `this.cache` and `this.lastUpdate`. -/
structure PluginState where
  cache : List FrontmatterField
  lastUpdate : Nat
deriving DecidableEq

/-! ## Incremental mutation paths -/

/-- Rewrite the first element satisfying `p` by `g`; models mutating, in
place, the object returned by `Array.prototype.find`. -/
def mutateFirst {α : Type} (p : α → Bool) (g : α → α) : List α → List α
  | [] => []
  | x :: xs => if p x then g x :: xs else x :: mutateFirst p g xs

/-- The conditional add of `addFileToCache` (lines 114-117): if the file is
not yet among the field's owners, push it and increment `count`. -/
def bumpField (path : String) (f : FrontmatterField) : FrontmatterField :=
  if path ∈ f.files then f
  else { f with files := f.files ++ [path], count := f.count + 1 }

/-- One iteration of `addFileToCache`'s loop for a non-ignored key (lines
108-117): look up the field by name, create `{name, count: 0, files: []}` if
absent (note: no `valueStats`), then conditionally add the file. -/
def addKeyToCache (path key : String) (cache : List FrontmatterField) :
    List FrontmatterField :=
  if cache.any (fun f => f.name = key) then
    mutateFirst (fun f => f.name = key) (bumpField path) cache
  else
    cache ++ [bumpField path { name := key, count := 0, files := [], valueStats := none }]

/-- The loop of `addFileToCache` (lines 105-118): fold every flattened entry
whose key is not on the ignore list into the cache. -/
def addEntriesToCache (ignoreFields : List String) (path : String)
    (entries : List (String × Value)) (cache : List FrontmatterField) :
    List FrontmatterField :=
  entries.foldl
    (fun c kv => if kv.1 ∈ ignoreFields then c else addKeyToCache path kv.1 c) cache

/-- `addFileToCache` (lines 98-121): no-op when the file has no frontmatter;
otherwise flattens it, folds every non-ignored entry into the cache, and
finally sets `lastUpdate := Date.now()`. -/
def addFileToCache (ignoreFields : List String) (file : Doc) (now : Nat)
    (s : PluginState) : PluginState :=
  match file.fm with
  | none => s
  | some fm =>
    { cache := addEntriesToCache ignoreFields file.path (flattenFrontmatter fm "") s.cache
      lastUpdate := now }

/-- The spread `{...field, files: ..., count: ...}` of lines 63-66 / 76-79:
drop the file from one field's owner list and recompute `count` as the
filtered length (both filters run on the original list, as in the source). -/
def removeFileFromField (path : String) (field : FrontmatterField) : FrontmatterField :=
  { field with files := field.files.filter (fun p => p ≠ path),
               count := (field.files.filter (fun p => p ≠ path)).length }

/-- The removal step shared by `updateCacheForFile` and `updateCacheOnDelete`
(lines 63-67 / 76-80): drop the file from every field's owner list, recompute
`count` as the filtered length, and delete fields whose count reaches 0. -/
def removeFileFromCache (path : String) (cache : List FrontmatterField) :
    List FrontmatterField :=
  (cache.map (removeFileFromField path)).filter (fun field => 0 < field.count)

/-- `updateCacheForFile` (lines 59-71), the `metadataCache.changed` handler:
remove the document's old contributions, then re-add from its current
frontmatter. -/
def updateCacheForFile (ignoreFields : List String) (file : Doc) (now : Nat)
    (s : PluginState) : PluginState :=
  addFileToCache ignoreFields file now
    { cache := removeFileFromCache file.path s.cache, lastUpdate := s.lastUpdate }

/-- `updateCacheOnDelete` (lines 73-81): remove the document everywhere;
`lastUpdate` is not touched. -/
def updateCacheOnDelete (path : String) (s : PluginState) : PluginState :=
  { cache := removeFileFromCache path s.cache, lastUpdate := s.lastUpdate }

/-- The per-record owner rewrite of `updateCacheOnRename` (lines 86-88):
replace the old path by the new one wherever it occurs. -/
def renameFileInField (oldPath newPath : String) (field : FrontmatterField) :
    FrontmatterField :=
  { field with files := field.files.map (fun p => if p = oldPath then newPath else p) }

/-- The owner-list rewrite of `updateCacheOnRename` (lines 86-89). -/
def renameInCache (oldPath newPath : String) (cache : List FrontmatterField) :
    List FrontmatterField :=
  cache.map (renameFileInField oldPath newPath)

/-- `updateCacheOnRename` (lines 83-90): replace the old path by the renamed
file in every owner list; counts and `lastUpdate` are not touched. -/
def updateCacheOnRename (file : Doc) (oldPath : String) (s : PluginState) :
    PluginState :=
  { cache := renameInCache oldPath file.path s.cache
    lastUpdate := s.lastUpdate }

/-- `updateCacheOnCreate` (lines 92-96): add the created document. -/
def updateCacheOnCreate (ignoreFields : List String) (file : Doc) (now : Nat)
    (s : PluginState) : PluginState :=
  addFileToCache ignoreFields file now s

/-- `clearCache` (lines 123-126). -/
def clearCache (_s : PluginState) : PluginState :=
  { cache := [], lastUpdate := 0 }

/-! ## Value statistics (rebuild only) -/

/-- `Array.isArray(value) ? 'array' : typeof value`, then the `null`
override (lines 204-205). -/
def typeOfValue : Value → String
  | Value.vArr _ => "array"
  | Value.vNull => "null"
  | Value.vStr _ => "string"
  | Value.vNum _ => "number"
  | Value.vBool _ => "boolean"
  | Value.vObj _ => "object"

/-- `String(value)` for the values that reach it in `updateValueStats`
(the guard excludes `object` and `array`, so only null / string / number /
boolean occur; the remaining branches are unreachable there). -/
def renderValue : Value → String
  | Value.vNull => "null"
  | Value.vStr s => s
  | Value.vNum n => toString n
  | Value.vBool b => if b then "true" else "false"
  | Value.vArr _ => ""
  | Value.vObj _ => ""

/-- `updateValueStats` (lines 203-224): bump the type tag's counter (insert
with 1 if new); for non-object, non-array values bump the rendered value's
entry in `topValues`, or append it with count 1 and refresh `unique` to the
new list length. -/
def updateValueStats (stats : ValueStats) (value : Value) : ValueStats :=
  let t := typeOfValue value
  let td :=
    if stats.typeDistribution.any (fun e => e.1 = t) then
      mutateFirst (fun e => e.1 = t) (fun e => (e.1, e.2 + 1)) stats.typeDistribution
    else stats.typeDistribution ++ [(t, 1)]
  if t ≠ "object" ∧ t ≠ "array" then
    let valueStr := renderValue value
    if stats.topValues.any (fun e => e.1 = valueStr) then
      { stats with
        typeDistribution := td
        topValues := mutateFirst (fun e => e.1 = valueStr) (fun e => (e.1, e.2 + 1)) stats.topValues }
    else
      { unique := stats.topValues.length + 1
        topValues := stats.topValues ++ [(valueStr, 1)]
        typeDistribution := td }
  else { stats with typeDistribution := td }

/-! ## The read path: full rebuild and `getFields` -/

/-- The conditional add of the rebuild loop (lines 172-179): if the file is
not yet an owner, increment the count, push the file and, when value
analysis is on, fold the value into the record's stats. -/
def rebuildBumpField (analyzeValues : Bool) (path : String) (value : Value)
    (f : FrontmatterField) : FrontmatterField :=
  if path ∈ f.files then f
  else
    { f with
      count := f.count + 1
      files := f.files ++ [path]
      valueStats :=
        if analyzeValues then f.valueStats.map (fun st => updateValueStats st value)
        else f.valueStats }

/-- One iteration of the rebuild loop for a non-ignored `(key, value)` entry
(lines 159-179): create the record if absent (with empty `valueStats` when
value analysis is on), then, if the file is not yet an owner, increment the
count, push the file and fold the value into the stats. -/
def rebuildAddEntry (analyzeValues : Bool) (path key : String) (value : Value)
    (fields : List FrontmatterField) : List FrontmatterField :=
  let fields :=
    if fields.any (fun f => f.name = key) then fields
    else fields ++ [{ name := key, count := 0, files := [],
                      valueStats := if analyzeValues then some ⟨0, [], []⟩ else none }]
  mutateFirst (fun f => f.name = key) (rebuildBumpField analyzeValues path value) fields

/-- The accumulator of the rebuild loop: the fields discovered so far (in
first-encounter order, as `Object.values` of the insertion-ordered
`fieldsMap`), the number of processed documents, and the percentages passed
to the progress callback so far. -/
structure RebuildAcc where
  fields : List FrontmatterField
  processed : Nat
  progressCalls : List ℚ
deriving DecidableEq

/-- The body of the rebuild's `for (const file of markdownFiles)` loop
(lines 147-186).  A document without frontmatter only advances the progress
counter -- and (line 151) reports progress whenever a callback is supplied,
without consulting `showProgress`; a document with frontmatter folds its
flattened non-ignored entries into the map and (line 183) reports progress
only when a callback is supplied and `showProgress` is on. -/
def processDoc (st : PluginSettings) (hasCallback : Bool) (total : Nat)
    (acc : RebuildAcc) (d : Doc) : RebuildAcc :=
  match d.fm with
  | none =>
    { acc with
      processed := acc.processed + 1
      progressCalls :=
        if hasCallback then
          acc.progressCalls ++ [((acc.processed + 1 : ℚ) / total) * 100]
        else acc.progressCalls }
  | some fm =>
    { fields := (flattenFrontmatter fm "").foldl
        (fun fs kv =>
          if kv.1 ∈ st.ignoreFields then fs
          else rebuildAddEntry st.analyzeValues d.path kv.1 kv.2 fs)
        acc.fields
      processed := acc.processed + 1
      progressCalls :=
        if hasCallback ∧ st.showProgress then
          acc.progressCalls ++ [((acc.processed + 1 : ℚ) / total) * 100]
        else acc.progressCalls }

/-- Stable insertion of a field into a count-descending list: the element
goes in front of the first entry whose count is at most its own, so an
earlier element precedes later ones with equal count. -/
def insertFieldDesc (x : FrontmatterField) : List FrontmatterField → List FrontmatterField
  | [] => [x]
  | y :: ys => if y.count ≤ x.count then x :: y :: ys else y :: insertFieldDesc x ys

/-- `sort((a, b) => b.count - a.count)` (line 198): the stable descending
sort by `count`. -/
def sortFieldsDesc (l : List FrontmatterField) : List FrontmatterField :=
  l.foldr insertFieldDesc []

/-- Stable insertion for `(value, count)` pairs, descending by count. -/
def insertPairDesc (x : String × Nat) : List (String × Nat) → List (String × Nat)
  | [] => [x]
  | y :: ys => if y.2 ≤ x.2 then x :: y :: ys else y :: insertPairDesc x ys

/-- `topValues.sort((a, b) => b.count - a.count)` (line 192). -/
def sortPairsDesc (l : List (String × Nat)) : List (String × Nat) :=
  l.foldr insertPairDesc []

/-- The post-pass of lines 188-196: when value analysis is on, replace each
record's `topValues` by its top 5 entries by count (stable). -/
def applyTopValuesTrim (analyzeValues : Bool) (fields : List FrontmatterField) :
    List FrontmatterField :=
  if analyzeValues then
    fields.map (fun f =>
      { f with
        valueStats := f.valueStats.map
          (fun st => { st with topValues := (sortPairsDesc st.topValues).take 5 }) })
  else fields

/-- The full-rebuild branch of `getFields` (lines 141-198): scan every
markdown document, then trim the top-value lists and sort the records by
count descending.  Returns the new field list and the progress-callback
arguments in call order. -/
def getFieldsRebuild (st : PluginSettings) (hasCallback : Bool) (V : Vault) :
    List FrontmatterField × List ℚ :=
  let acc := V.foldl (processDoc st hasCallback V.length) ⟨[], 0, []⟩
  (sortFieldsDesc (applyTopValuesTrim st.analyzeValues acc.fields), acc.progressCalls)

/-- The observable outcome of one `getFields` call: the returned sequence,
the plugin state afterwards, whether the rebuild branch ran, how many
documents were scanned, and the progress percentages reported. -/
structure GetFieldsResult where
  result : List FrontmatterField
  state : PluginState
  rebuilt : Bool
  scanned : Nat
  progressCalls : List ℚ
deriving DecidableEq

/-- `getFields` (lines 136-201): serve the cache when it is non-empty and
younger than `cacheTTL` seconds, otherwise rebuild, store the result and the
current time, and return it. -/
def getFields (st : PluginSettings) (hasCallback : Bool) (V : Vault) (now : Nat)
    (s : PluginState) : GetFieldsResult :=
  if 0 < s.cache.length ∧ now - s.lastUpdate < st.cacheTTL * 1000 then
    { result := s.cache, state := s, rebuilt := false, scanned := 0, progressCalls := [] }
  else
    let r := getFieldsRebuild st hasCallback V
    { result := r.1, state := { cache := r.1, lastUpdate := now }, rebuilt := true,
      scanned := V.length, progressCalls := r.2 }

/-! ## Host events -/

/-- The four change notifications the plugin registers handlers for.
`create` and `change` carry the header the metadata cache reports for the
document when the handler reads it, and the `Date.now()` value of the
moment; `rename` carries the old and the new path (a rename does not change
the parsed content). -/
inductive MutEvent where
  | create (d : Doc) (now : Nat)
  | change (path : String) (fm : Option Fields) (now : Nat)
  | delete (path : String)
  | rename (oldPath newPath : String)
deriving DecidableEq

/-- How the host's vault evolves under each notification. -/
def applyVault : MutEvent → Vault → Vault
  | MutEvent.create d _, V => V ++ [d]
  | MutEvent.change p fm _, V => V.map (fun d => if d.path = p then { d with fm := fm } else d)
  | MutEvent.delete p, V => V.filter (fun d => d.path ≠ p)
  | MutEvent.rename o n, V => V.map (fun d => if d.path = o then { d with path := n } else d)

/-- Dispatch of the four registered handlers (lines 43-46). -/
def applyMutEvent (st : PluginSettings) : MutEvent → PluginState → PluginState
  | MutEvent.create d now, s => updateCacheOnCreate st.ignoreFields d now s
  | MutEvent.change p fm now, s => updateCacheForFile st.ignoreFields ⟨p, fm⟩ now s
  | MutEvent.delete p, s => updateCacheOnDelete p s
  | MutEvent.rename o n, s => updateCacheOnRename ⟨n, none⟩ o s

/-- Run a sequence of change notifications against the vault and the plugin
state. -/
def runMut (st : PluginSettings) : List MutEvent → Vault × PluginState → Vault × PluginState
  | [], vs => vs
  | e :: es, (V, s) => runMut st es (applyVault e V, applyMutEvent st e s)

/-- Vault paths are distinct (the host never holds two files at one path). -/
def vaultWF (V : Vault) : Prop := (V.map Doc.path).Nodup

/-- The host only emits notifications that make sense for its current vault:
a created path is new, a changed path exists, a rename target is free. -/
def mutEventWF (V : Vault) : MutEvent → Prop
  | MutEvent.create d _ => d.path ∉ V.map Doc.path
  | MutEvent.change p _ _ => p ∈ V.map Doc.path
  | MutEvent.delete _ => True
  | MutEvent.rename _ n => n ∉ V.map Doc.path

/-- Stepwise well-formedness of an event sequence. -/
def mutEventsWF : Vault → List MutEvent → Prop
  | _, [] => True
  | V, e :: es => mutEventWF V e ∧ mutEventsWF (applyVault e V) es

instance (V : Vault) : Decidable (vaultWF V) :=
  inferInstanceAs (Decidable (V.map Doc.path).Nodup)

instance (V : Vault) : (e : MutEvent) → Decidable (mutEventWF V e)
  | MutEvent.create d _ => inferInstanceAs (Decidable (d.path ∉ V.map Doc.path))
  | MutEvent.change p _ _ => inferInstanceAs (Decidable (p ∈ V.map Doc.path))
  | MutEvent.delete _ => inferInstanceAs (Decidable True)
  | MutEvent.rename _ n => inferInstanceAs (Decidable (n ∉ V.map Doc.path))

instance instDecMutEventsWF : (V : Vault) → (es : List MutEvent) → Decidable (mutEventsWF V es)
  | _, [] => isTrue trivial
  | V, e :: es =>
    @instDecidableAnd _ _ _ (instDecMutEventsWF (applyVault e V) es)

/-! ## System-level events (reads and cache clears interleaved with mutations) -/

/-- An event at the plugin's interface: a host change notification, a
`getFields` read (which may rebuild and store a new cache), or an explicit
`clearCache` (as performed on relevant settings changes). -/
inductive SysEvent where
  | mutEv (e : MutEvent)
  | refresh (now : Nat) (hasCallback : Bool)
  | clear
deriving DecidableEq

/-- Vault evolution under a system event (reads and clears do not change the
vault). -/
def applySysVault : SysEvent → Vault → Vault
  | SysEvent.mutEv e, V => applyVault e V
  | SysEvent.refresh _ _, V => V
  | SysEvent.clear, V => V

/-- Plugin-state evolution under a system event. -/
def applySysState (st : PluginSettings) : SysEvent → Vault → PluginState → PluginState
  | SysEvent.mutEv e, _, s => applyMutEvent st e s
  | SysEvent.refresh now b, V, s => (getFields st b V now s).state
  | SysEvent.clear, _, s => clearCache s

/-- Run a sequence of system events. -/
def runSys (st : PluginSettings) : List SysEvent → Vault × PluginState → Vault × PluginState
  | [], vs => vs
  | e :: es, (V, s) => runSys st es (applySysVault e V, applySysState st e V s)

/-! ## Specification-side definitions (for stating and proving properties) -/

/-- The flattened field names a document currently declares. -/
def docKeys (d : Doc) : List String :=
  match d.fm with
  | none => []
  | some fm => (flattenFrontmatter fm "").map Prod.fst

/-- Document `p` of vault `V` currently declares the flattened field `k`. -/
def vaultDeclares (V : Vault) (p k : String) : Prop :=
  ∃ d ∈ V, d.path = p ∧ k ∈ docKeys d

/-- The first cache record with the given field name (`cache.find`). -/
def lookupF (c : List FrontmatterField) (k : String) : Option FrontmatterField :=
  c.find? (fun f => f.name = k)

/-- The cache component of `addFileToCache`. -/
def addDocToCache (ignoreFields : List String) (file : Doc)
    (cache : List FrontmatterField) : List FrontmatterField :=
  match file.fm with
  | none => cache
  | some fm => addEntriesToCache ignoreFields file.path (flattenFrontmatter fm "") cache

/-- The fields component of one rebuild-loop iteration (`processDoc`). -/
def rebuildAddDoc (st : PluginSettings) (d : Doc) (fields : List FrontmatterField) :
    List FrontmatterField :=
  match d.fm with
  | none => fields
  | some fm => (flattenFrontmatter fm "").foldl
      (fun fs kv =>
        if kv.1 ∈ st.ignoreFields then fs
        else rebuildAddEntry st.analyzeValues d.path kv.1 kv.2 fs) fields

/-- Forget one record's `valueStats`. -/
def stripField (f : FrontmatterField) : FrontmatterField :=
  { f with valueStats := none }

/-- Forget every record's `valueStats` (the data the incremental paths do
not maintain). -/
def stripStats (c : List FrontmatterField) : List FrontmatterField :=
  c.map stripField

/-- The faithfulness relation between two caches used by the equivalence
claim: same field names, and for records of equal name the same document
count and the same owning set -- order and `valueStats` disregarded. -/
def cacheEquiv (a b : List FrontmatterField) : Prop :=
  (∀ k, (∃ f ∈ a, f.name = k) ↔ (∃ g ∈ b, g.name = k)) ∧
  ∀ f ∈ a, ∀ g ∈ b, f.name = g.name →
    f.count = g.count ∧ ∀ p, (p ∈ f.files ↔ p ∈ g.files)

/-- The abstraction invariant tying a cache to the current vault: field
names are unique; every record carries a duplicate-free, non-empty owner
list matching its count, its name is not ignored, and its owners are exactly
the documents declaring the field; and every declared, non-ignored field has
a record. -/
structure CacheInv (V : Vault) (ign : List String) (c : List FrontmatterField) : Prop where
  nodupNames : (c.map FrontmatterField.name).Nodup
  found : ∀ k f, lookupF c k = some f →
    f.name = k ∧ f.files.Nodup ∧ f.count = f.files.length ∧ k ∉ ign ∧
      f.files ≠ [] ∧ ∀ p, (p ∈ f.files ↔ vaultDeclares V p k)
  missing : ∀ k, lookupF c k = none → k ∈ ign ∨ ∀ p, ¬ vaultDeclares V p k

/-! ## The spec's reading of the flattener (for the flattening claim) -/

/-- "The dotted path is built by joining ancestor keys with `.`". -/
def dottedPath (ks : List String) : String := String.intercalate "." ks

mutual
/-- The flattener exactly as the specification words it: depth-first over
the entries in insertion order, recursing precisely into non-null,
non-array object values, arrays kept as leaves, each leaf keyed by the
dot-joined path of its ancestor keys. -/
def flattenSpecDotted : Fields → List String → List (String × Value)
  | Fields.nil, _ => []
  | Fields.cons key value rest, anc =>
    flattenSpecDottedValue value (anc ++ [key]) ++ flattenSpecDotted rest anc

/-- Leaf/recursion dispatch of `flattenSpecDotted`. -/
def flattenSpecDottedValue : Value → List String → List (String × Value)
  | Value.vObj fields, anc => flattenSpecDotted fields anc
  | v, anc => [(dottedPath anc, v)]
end

/-- Joining one more key onto an accumulated dotted prefix the way the code
does it: an empty prefix is dropped instead of contributing a leading dot. -/
def joinKeyStep (pre key : String) : String :=
  if pre = "" then key else pre ++ "." ++ key

/-- The dot-join of a key path with empty prefixes dropped (the code's
actual key construction). -/
def mergedPath (ks : List String) : String := ks.foldl joinKeyStep ""

mutual
/-- The spec's flattener amended minimally: identical traversal and
ordering, but leaf keys are built with `mergedPath` (empty accumulated
prefixes are dropped) instead of a plain dot-join. -/
def flattenSpecMerged : Fields → List String → List (String × Value)
  | Fields.nil, _ => []
  | Fields.cons key value rest, anc =>
    flattenSpecMergedValue value (anc ++ [key]) ++ flattenSpecMerged rest anc

/-- Leaf/recursion dispatch of `flattenSpecMerged`. -/
def flattenSpecMergedValue : Value → List String → List (String × Value)
  | Value.vObj fields, anc => flattenSpecMerged fields anc
  | v, anc => [(mergedPath anc, v)]
end

/-! Sanity checks of the embedding on the spec's scenario: doc A with
`{tags: [x, y], author: {name: Bob}}`, doc B with `{tags: [z]}`, doc C
without a header. -/

def exDocA : Doc :=
  ⟨"A.md", some (Fields.cons "tags" (Value.vArr (ValueList.cons (Value.vStr "x")
      (ValueList.cons (Value.vStr "y") ValueList.nil)))
    (Fields.cons "author" (Value.vObj (Fields.cons "name" (Value.vStr "Bob") Fields.nil))
      Fields.nil))⟩

def exDocB : Doc :=
  ⟨"B.md", some (Fields.cons "tags" (Value.vArr (ValueList.cons (Value.vStr "z") ValueList.nil))
    Fields.nil)⟩

def exDocC : Doc := ⟨"C.md", none⟩

example :
    ((getFieldsRebuild DEFAULT_SETTINGS false [exDocA, exDocB, exDocC]).1.map
      (fun f => (f.name, f.count, f.files))) =
      [("tags", 2, ["A.md", "B.md"]), ("author.name", 1, ["A.md"])] := by decide

example :
    ((runMut DEFAULT_SETTINGS [MutEvent.rename "A.md" "A2.md"]
        ([exDocA, exDocB, exDocC],
         (getFields DEFAULT_SETTINGS false [exDocA, exDocB, exDocC] 0 ⟨[], 0⟩).state)).2.cache.map
      (fun f => (f.name, f.count, f.files))) =
      [("tags", 2, ["A2.md", "B.md"]), ("author.name", 1, ["A2.md"])] := by decide

example :
    ((runMut DEFAULT_SETTINGS [MutEvent.delete "B.md"]
        ([exDocA, exDocB, exDocC],
         (getFields DEFAULT_SETTINGS false [exDocA, exDocB, exDocC] 0 ⟨[], 0⟩).state)).2.cache.map
      (fun f => (f.name, f.count))) =
      [("tags", 1), ("author.name", 1)] := by decide


/-! ## Lemmas: `mutateFirst` -/

theorem mutateFirst_map {α β : Type} (p : α → Bool) (q : β → Bool) (g : α → α) (g' : β → β)
    (h : α → β) (hp : ∀ x, q (h x) = p x) (hg : ∀ x, p x = true → h (g x) = g' (h x)) :
    ∀ l : List α, (mutateFirst p g l).map h = mutateFirst q g' (l.map h)
  | [] => rfl
  | x :: xs => by
    by_cases hx : p x = true
    · simp [mutateFirst, hx, hp, hg x hx]
    · simp [mutateFirst, hx, hp, mutateFirst_map p q g g' h hp hg xs]

theorem map_mutateFirst_of_pres {α β : Type} (p : α → Bool) (g : α → α) (h : α → β)
    (hpres : ∀ x, h (g x) = h x) :
    ∀ l : List α, (mutateFirst p g l).map h = l.map h
  | [] => rfl
  | x :: xs => by
    by_cases hx : p x = true
    · simp [mutateFirst, hx, hpres]
    · simp [mutateFirst, hx, map_mutateFirst_of_pres p g h hpres xs]

theorem mutateFirst_eq_self {α : Type} (p : α → Bool) (g : α → α) :
    ∀ l : List α, (∀ x ∈ l, ¬ p x = true) → mutateFirst p g l = l
  | [], _ => rfl
  | x :: xs, h => by
    have hx : ¬ p x = true := h x (by simp)
    simp [mutateFirst, hx]
    exact mutateFirst_eq_self p g xs (fun y hy => h y (by simp [hy]))

theorem mutateFirst_append_left {α : Type} (p : α → Bool) (g : α → α) (l₂ : List α) :
    ∀ l₁ : List α, (∀ x ∈ l₁, ¬ p x = true) →
      mutateFirst p g (l₁ ++ l₂) = l₁ ++ mutateFirst p g l₂
  | [], _ => rfl
  | x :: xs, h => by
    have hx : ¬ p x = true := h x (by simp)
    have ih := mutateFirst_append_left p g l₂ xs (fun y hy => h y (by simp [hy]))
    simp only [List.cons_append, mutateFirst, if_neg hx]
    rw [List.append_eq, ih]

/-! ## Lemmas: `lookupF` -/

theorem lookupF_nil (k : String) : lookupF [] k = none := rfl

theorem lookupF_cons (f : FrontmatterField) (c : List FrontmatterField) (k : String) :
    lookupF (f :: c) k = if f.name = k then some f else lookupF c k := by
  by_cases h : f.name = k <;> simp [lookupF, List.find?_cons, h]

theorem lookupF_eq_none_iff (c : List FrontmatterField) (k : String) :
    lookupF c k = none ↔ ∀ f ∈ c, f.name ≠ k := by
  simp [lookupF, List.find?_eq_none]

theorem lookupF_mem (c : List FrontmatterField) (k : String) (f : FrontmatterField)
    (h : lookupF c k = some f) : f ∈ c ∧ f.name = k := by
  refine ⟨List.mem_of_find?_eq_some h, ?_⟩
  have := List.find?_some h
  simpa using this

theorem lookupF_of_mem (c : List FrontmatterField)
    (hnodup : (c.map FrontmatterField.name).Nodup) (f : FrontmatterField) (hf : f ∈ c) :
    lookupF c f.name = some f := by
  induction c with
  | nil => cases hf
  | cons x xs ih =>
    rcases List.mem_cons.mp hf with rfl | hmem
    · simp [lookupF_cons]
    · have hx : x.name ≠ f.name := by
        intro hcontra
        have : f.name ∈ xs.map FrontmatterField.name := List.mem_map_of_mem _ hmem
        simp only [List.map_cons, List.nodup_cons] at hnodup
        exact hnodup.1 (hcontra ▸ this)
      rw [lookupF_cons, if_neg hx]
      exact ih (by simp only [List.map_cons, List.nodup_cons] at hnodup; exact hnodup.2) hmem

theorem lookupF_eq_some_iff (c : List FrontmatterField)
    (hnodup : (c.map FrontmatterField.name).Nodup) (k : String) (f : FrontmatterField) :
    lookupF c k = some f ↔ f ∈ c ∧ f.name = k := by
  constructor
  · exact lookupF_mem c k f
  · rintro ⟨hf, rfl⟩
    exact lookupF_of_mem c hnodup f hf

theorem lookupF_isSome_iff (c : List FrontmatterField) (k : String) :
    (lookupF c k).isSome ↔ ∃ f ∈ c, f.name = k := by
  simp [lookupF, List.find?_isSome]

theorem lookupF_map_pres (g : FrontmatterField → FrontmatterField)
    (hg : ∀ f, (g f).name = f.name) (k : String) :
    ∀ c : List FrontmatterField, lookupF (c.map g) k = (lookupF c k).map g
  | [] => rfl
  | f :: c => by
    by_cases h : f.name = k
    · simp [List.map_cons, lookupF_cons, hg, h]
    · simp [List.map_cons, lookupF_cons, hg, h, lookupF_map_pres g hg k c]

theorem lookupF_filter (q : FrontmatterField → Bool) (k : String) :
    ∀ c : List FrontmatterField, (c.map FrontmatterField.name).Nodup →
      lookupF (c.filter q) k = (lookupF c k).bind (fun f => if q f then some f else none)
  | [], _ => rfl
  | f :: c, hnodup => by
    have hnd : (c.map FrontmatterField.name).Nodup := by
      simp only [List.map_cons, List.nodup_cons] at hnodup; exact hnodup.2
    by_cases h : f.name = k
    · have hnone : lookupF (c.filter q) k = none := by
        rw [lookupF_filter q k c hnd]
        have : lookupF c k = none := by
          rw [lookupF_eq_none_iff]
          intro f' hf' hcontra
          have hmem : f'.name ∈ c.map FrontmatterField.name := List.mem_map_of_mem _ hf'
          simp only [List.map_cons, List.nodup_cons] at hnodup
          exact hnodup.1 (by rw [h, ← hcontra]; exact hmem)
        simp [this]
      by_cases hq : q f = true
      · simp [List.filter_cons, hq, lookupF_cons, h]
      · simp [List.filter_cons, hq, lookupF_cons, h, hnone]
    · by_cases hq : q f = true
      · simp [List.filter_cons, hq, lookupF_cons, h, lookupF_filter q k c hnd]
      · simp [List.filter_cons, hq, lookupF_cons, h, lookupF_filter q k c hnd]

theorem lookupF_append (c₁ c₂ : List FrontmatterField) (k : String) :
    lookupF (c₁ ++ c₂) k = (lookupF c₁ k).or (lookupF c₂ k) := by
  simp [lookupF, List.find?_append]

theorem lookupF_mutateFirst_self (k : String) (g : FrontmatterField → FrontmatterField)
    (hg : ∀ f, (g f).name = f.name) :
    ∀ c : List FrontmatterField,
      lookupF (mutateFirst (fun f => f.name = k) g c) k = (lookupF c k).map g
  | [] => rfl
  | f :: c => by
    by_cases h : f.name = k
    · simp [mutateFirst, h, lookupF_cons, hg]
    · simp [mutateFirst, h, lookupF_cons, lookupF_mutateFirst_self k g hg c]

theorem lookupF_mutateFirst_ne (k k' : String) (g : FrontmatterField → FrontmatterField)
    (hg : ∀ f, (g f).name = f.name) (hne : k' ≠ k) :
    ∀ c : List FrontmatterField,
      lookupF (mutateFirst (fun f => f.name = k) g c) k' = lookupF c k'
  | [] => rfl
  | f :: c => by
    by_cases h : f.name = k
    · have h1 : (g f).name ≠ k' := by rw [hg, h]; intro hc; exact hne hc.symm
      have h2 : f.name ≠ k' := by rw [h]; intro hc; exact hne hc.symm
      have h3 : ¬ k = k' := fun hc => hne hc.symm
      simp [mutateFirst, h, lookupF_cons, h1, h2, h3]
    · simp [mutateFirst, h, lookupF_cons, lookupF_mutateFirst_ne k k' g hg hne c]


/-! ## Lemmas: `bumpField` and `addKeyToCache` -/

theorem bumpField_name (p : String) (f : FrontmatterField) :
    (bumpField p f).name = f.name := by
  unfold bumpField; split <;> rfl

theorem bumpField_valueStats (p : String) (f : FrontmatterField) :
    (bumpField p f).valueStats = f.valueStats := by
  unfold bumpField; split <;> rfl

theorem bumpField_of_mem {p : String} {f : FrontmatterField} (h : p ∈ f.files) :
    bumpField p f = f := by
  unfold bumpField; rw [if_pos h]

theorem bumpField_of_not_mem {p : String} {f : FrontmatterField} (h : p ∉ f.files) :
    bumpField p f = { f with files := f.files ++ [p], count := f.count + 1 } := by
  unfold bumpField; rw [if_neg h]

theorem mem_bumpField_files (p q : String) (f : FrontmatterField) :
    q ∈ (bumpField p f).files ↔ q ∈ f.files ∨ q = p := by
  by_cases h : p ∈ f.files
  · rw [bumpField_of_mem h]
    constructor
    · exact Or.inl
    · rintro (hq | rfl)
      · exact hq
      · exact h
  · rw [bumpField_of_not_mem h]
    simp

theorem bumpField_idem (p : String) (f : FrontmatterField) :
    bumpField p (bumpField p f) = bumpField p f := by
  by_cases h : p ∈ f.files
  · rw [bumpField_of_mem h, bumpField_of_mem h]
  · rw [bumpField_of_not_mem h]
    exact bumpField_of_mem (by simp)

theorem lookupF_addKeyToCache_self (p k : String) (c : List FrontmatterField) :
    lookupF (addKeyToCache p k c) k =
      some (bumpField p ((lookupF c k).getD
        { name := k, count := 0, files := [], valueStats := none })) := by
  unfold addKeyToCache
  by_cases h : c.any (fun f => f.name = k) = true
  · rw [if_pos h, lookupF_mutateFirst_self k _ (bumpField_name p)]
    have hsome : (lookupF c k).isSome := by
      rw [lookupF_isSome_iff]
      simpa using h
    obtain ⟨f, hf⟩ := Option.isSome_iff_exists.mp hsome
    rw [hf]; rfl
  · rw [if_neg h]
    have hnone : lookupF c k = none := by
      rw [lookupF_eq_none_iff]
      intro f hf hname
      exact h (List.any_eq_true.mpr ⟨f, hf, by simp [hname]⟩)
    rw [lookupF_append, hnone, Option.none_or, lookupF_cons,
      if_pos (by rw [bumpField_name])]
    rfl

theorem lookupF_addKeyToCache_ne (p k k' : String) (c : List FrontmatterField)
    (hne : k' ≠ k) : lookupF (addKeyToCache p k c) k' = lookupF c k' := by
  unfold addKeyToCache
  by_cases h : c.any (fun f => f.name = k) = true
  · rw [if_pos h]
    exact lookupF_mutateFirst_ne k k' _ (bumpField_name p) hne c
  · rw [if_neg h, lookupF_append]
    have : lookupF [bumpField p { name := k, count := 0, files := [], valueStats := none }] k'
        = none := by
      rw [lookupF_cons, if_neg (by rw [bumpField_name]; exact fun hc => hne hc.symm)]
      rfl
    rw [this, Option.or_none]

theorem names_addKeyToCache (p k : String) (c : List FrontmatterField) :
    (addKeyToCache p k c).map FrontmatterField.name =
      if c.any (fun f => f.name = k) then c.map FrontmatterField.name
      else c.map FrontmatterField.name ++ [k] := by
  unfold addKeyToCache
  by_cases h : c.any (fun f => f.name = k) = true
  · rw [if_pos h, if_pos h]
    exact map_mutateFirst_of_pres _ _ _ (bumpField_name p) c
  · rw [if_neg h, if_neg h, List.map_append]
    simp [bumpField_name]

theorem nodupNames_addKeyToCache (p k : String) (c : List FrontmatterField)
    (h : (c.map FrontmatterField.name).Nodup) :
    ((addKeyToCache p k c).map FrontmatterField.name).Nodup := by
  rw [names_addKeyToCache]
  by_cases hany : c.any (fun f => f.name = k) = true
  · rw [if_pos hany]; exact h
  · rw [if_neg hany]
    refine List.Nodup.append h (List.nodup_singleton k) ?_
    intro a ha hk
    rcases List.mem_singleton.mp hk with rfl
    obtain ⟨f, hf, hfname⟩ := List.mem_map.mp ha
    exact hany (List.any_eq_true.mpr ⟨f, hf, by simp [hfname]⟩)

theorem addEntriesToCache_cons (ign : List String) (p : String)
    (k₀ : String) (v : Value) (rest : List (String × Value)) (c : List FrontmatterField) :
    addEntriesToCache ign p ((k₀, v) :: rest) c =
      addEntriesToCache ign p rest (if k₀ ∈ ign then c else addKeyToCache p k₀ c) := by
  simp only [addEntriesToCache, List.foldl_cons]

theorem lookupF_addEntriesToCache (ign : List String) (p k : String) :
    ∀ (entries : List (String × Value)) (c : List FrontmatterField),
      lookupF (addEntriesToCache ign p entries c) k =
        if k ∈ entries.map Prod.fst ∧ k ∉ ign then
          some (bumpField p ((lookupF c k).getD
            { name := k, count := 0, files := [], valueStats := none }))
        else lookupF c k
  | [], c => by simp [addEntriesToCache]
  | (k₀, v) :: rest, c => by
    rw [addEntriesToCache_cons, lookupF_addEntriesToCache ign p k rest _]
    by_cases hk : k = k₀
    · subst hk
      by_cases hign : k ∈ ign
      · simp [hign]
      · simp only [if_neg hign, lookupF_addKeyToCache_self]
        by_cases hA : k ∈ rest.map Prod.fst
        · simp [hA, hign, bumpField_idem]
        · simp [hA, hign]
    · have hlook : lookupF (if k₀ ∈ ign then c else addKeyToCache p k₀ c) k = lookupF c k := by
        split
        · rfl
        · exact lookupF_addKeyToCache_ne p k₀ k c hk
      rw [hlook]
      simp only [List.map_cons]
      by_cases hA : k ∈ List.map Prod.fst rest ∧ k ∉ ign
      · rw [if_pos hA, if_pos (⟨List.mem_cons_of_mem _ hA.1, hA.2⟩ :
          k ∈ k₀ :: List.map Prod.fst rest ∧ k ∉ ign)]
      · have hB : ¬ (k ∈ k₀ :: List.map Prod.fst rest ∧ k ∉ ign) := by
          rintro ⟨hmem, hign⟩
          rcases List.mem_cons.mp hmem with rfl | hmem'
          · exact hk rfl
          · exact hA ⟨hmem', hign⟩
        rw [if_neg hA, if_neg hB]

theorem nodupNames_addEntriesToCache (ign : List String) (p : String) :
    ∀ (entries : List (String × Value)) (c : List FrontmatterField),
      (c.map FrontmatterField.name).Nodup →
      ((addEntriesToCache ign p entries c).map FrontmatterField.name).Nodup
  | [], _, h => h
  | (k₀, v) :: rest, c, h => by
    rw [addEntriesToCache_cons]
    refine nodupNames_addEntriesToCache ign p rest _ ?_
    split
    · exact h
    · exact nodupNames_addKeyToCache p k₀ c h

theorem lookupF_addDocToCache (ign : List String) (d : Doc) (k : String)
    (c : List FrontmatterField) :
    lookupF (addDocToCache ign d c) k =
      if k ∈ docKeys d ∧ k ∉ ign then
        some (bumpField d.path ((lookupF c k).getD
          { name := k, count := 0, files := [], valueStats := none }))
      else lookupF c k := by
  obtain ⟨p, fm⟩ := d
  cases fm with
  | none => simp [addDocToCache, docKeys]
  | some fm => simpa [addDocToCache, docKeys] using
      lookupF_addEntriesToCache ign p k (flattenFrontmatter fm "") c

theorem nodupNames_addDocToCache (ign : List String) (d : Doc)
    (c : List FrontmatterField) (h : (c.map FrontmatterField.name).Nodup) :
    ((addDocToCache ign d c).map FrontmatterField.name).Nodup := by
  obtain ⟨p, fm⟩ := d
  cases fm with
  | none => exact h
  | some fm => exact nodupNames_addEntriesToCache ign p (flattenFrontmatter fm "") c h

/-! ## Lemmas: `vaultDeclares` -/

theorem vaultDeclares_mem_paths {V : Vault} {p k : String} (h : vaultDeclares V p k) :
    p ∈ V.map Doc.path := by
  obtain ⟨d, hd, rfl, _⟩ := h
  exact List.mem_map_of_mem _ hd

theorem not_vaultDeclares_of_fresh {V : Vault} {p : String} (h : p ∉ V.map Doc.path)
    (k : String) : ¬ vaultDeclares V p k :=
  fun hc => h (vaultDeclares_mem_paths hc)

theorem vaultDeclares_append_singleton (V : Vault) (d : Doc) (p k : String) :
    vaultDeclares (V ++ [d]) p k ↔ vaultDeclares V p k ∨ (p = d.path ∧ k ∈ docKeys d) := by
  constructor
  · rintro ⟨d', hd', hp, hk⟩
    rcases List.mem_append.mp hd' with h | h
    · exact Or.inl ⟨d', h, hp, hk⟩
    · rcases List.mem_singleton.mp h with rfl
      exact Or.inr ⟨hp.symm, hk⟩
  · rintro (⟨d', h, hp, hk⟩ | ⟨rfl, hk⟩)
    · exact ⟨d', List.mem_append_left _ h, hp, hk⟩
    · exact ⟨d, List.mem_append_right _ (by simp), rfl, hk⟩

theorem vaultDeclares_filter_ne (V : Vault) (p₀ p k : String) :
    vaultDeclares (V.filter (fun d => d.path ≠ p₀)) p k ↔
      vaultDeclares V p k ∧ p ≠ p₀ := by
  constructor
  · rintro ⟨d, hd, rfl, hk⟩
    rw [List.mem_filter] at hd
    refine ⟨⟨d, hd.1, rfl, hk⟩, ?_⟩
    simpa using hd.2
  · rintro ⟨⟨d, hd, rfl, hk⟩, hne⟩
    exact ⟨d, List.mem_filter.mpr ⟨hd, by simpa using hne⟩, rfl, hk⟩

theorem renameDoc_docKeys (o n : String) (d : Doc) :
    docKeys (if d.path = o then { d with path := n } else d) = docKeys d := by
  split <;> rfl

theorem renameDoc_path (o n : String) (d : Doc) :
    (if d.path = o then { d with path := n } else d).path =
      if d.path = o then n else d.path := by
  by_cases h : d.path = o <;> simp [h]

theorem vaultDeclares_rename (V : Vault) (o n p k : String) :
    vaultDeclares (applyVault (MutEvent.rename o n) V) p k ↔
      ∃ q, vaultDeclares V q k ∧ (if q = o then n else q) = p := by
  constructor
  · rintro ⟨d', hd', hp, hk⟩
    rw [applyVault, List.mem_map] at hd'
    obtain ⟨d, hd, rfl⟩ := hd'
    rw [renameDoc_docKeys] at hk
    refine ⟨d.path, ⟨d, hd, rfl, hk⟩, ?_⟩
    rw [← hp, renameDoc_path]
  · rintro ⟨q, ⟨d, hd, rfl, hk⟩, hp⟩
    refine ⟨_, List.mem_map_of_mem _ hd, ?_, ?_⟩
    · rw [renameDoc_path]; exact hp
    · rw [renameDoc_docKeys]; exact hk

theorem changeDoc_path (p₀ : String) (fm : Option Fields) (d : Doc) :
    (if d.path = p₀ then { d with fm := fm } else d).path = d.path := by
  split <;> rfl

theorem vaultDeclares_change (V : Vault) (p₀ : String) (fm : Option Fields) (t : Nat)
    (hp : p₀ ∈ V.map Doc.path) (p k : String) :
    vaultDeclares (applyVault (MutEvent.change p₀ fm t) V) p k ↔
      vaultDeclares (V.filter (fun d => d.path ≠ p₀) ++ [⟨p₀, fm⟩]) p k := by
  rw [vaultDeclares_append_singleton]
  constructor
  · rintro ⟨d', hd', hpath, hk⟩
    rw [applyVault, List.mem_map] at hd'
    obtain ⟨d, hd, rfl⟩ := hd'
    rw [changeDoc_path] at hpath
    by_cases h : d.path = p₀
    · right
      rw [if_pos h] at hk
      exact ⟨by rw [← hpath, h], hk⟩
    · left
      rw [if_neg h] at hk
      exact ⟨d, List.mem_filter.mpr ⟨hd, by simpa using h⟩, hpath, hk⟩
  · rintro (⟨d, hd, hpath, hk⟩ | ⟨hpp, hk⟩)
    · rw [List.mem_filter] at hd
      have hne : d.path ≠ p₀ := by simpa using hd.2
      refine ⟨if d.path = p₀ then { d with fm := fm } else d,
        List.mem_map_of_mem _ hd.1, ?_, ?_⟩
      · rw [changeDoc_path]; exact hpath
      · rw [if_neg hne]; exact hk
    · obtain ⟨d, hd, hdp⟩ := List.mem_map.mp hp
      refine ⟨if d.path = p₀ then { d with fm := fm } else d,
        List.mem_map_of_mem _ hd, ?_, ?_⟩
      · rw [changeDoc_path, hdp]; exact hpp.symm
      · rw [if_pos hdp]; exact hk

theorem CacheInv.congr {V₁ V₂ : Vault} {ign : List String} {c : List FrontmatterField}
    (h : ∀ p k, vaultDeclares V₁ p k ↔ vaultDeclares V₂ p k) :
    CacheInv V₁ ign c → CacheInv V₂ ign c := by
  rintro ⟨h1, h2, h3⟩
  refine ⟨h1, ?_, ?_⟩
  · intro k f hf
    obtain ⟨ha, hb, hc, hd, he, hmem⟩ := h2 k f hf
    exact ⟨ha, hb, hc, hd, he, fun p => (hmem p).trans (h p k)⟩
  · intro k hf
    rcases h3 k hf with hig | hnone
    · exact Or.inl hig
    · exact Or.inr (fun p hc => hnone p ((h p k).mpr hc))

/-! ## Invariant preservation: adding a fresh document -/

theorem bumpField_found {V : Vault} {ign : List String} (d : Doc) (k : String)
    (f₀ : FrontmatterField) (hname : f₀.name = k) (hnd : f₀.files.Nodup)
    (hcount : f₀.count = f₀.files.length) (hign : k ∉ ign)
    (hmem : ∀ p, p ∈ f₀.files ↔ vaultDeclares V p k)
    (hfresh : d.path ∉ V.map Doc.path) (hk : k ∈ docKeys d) :
    (bumpField d.path f₀).name = k ∧ (bumpField d.path f₀).files.Nodup ∧
      (bumpField d.path f₀).count = (bumpField d.path f₀).files.length ∧ k ∉ ign ∧
      (bumpField d.path f₀).files ≠ [] ∧
      ∀ p, (p ∈ (bumpField d.path f₀).files ↔ vaultDeclares (V ++ [d]) p k) := by
  have hnotin : d.path ∉ f₀.files := fun hc =>
    not_vaultDeclares_of_fresh hfresh k ((hmem d.path).mp hc)
  rw [bumpField_of_not_mem hnotin]
  refine ⟨hname, ?_, by simp [hcount], hign, by simp, ?_⟩
  · refine List.Nodup.append hnd (List.nodup_singleton _) ?_
    intro a ha hb
    rcases List.mem_singleton.mp hb with rfl
    exact hnotin ha
  · intro p
    rw [vaultDeclares_append_singleton]
    simp only [List.mem_append, List.mem_singleton, hmem p]
    constructor
    · rintro (h | rfl)
      · exact Or.inl h
      · exact Or.inr ⟨rfl, hk⟩
    · rintro (h | ⟨rfl, _⟩)
      · exact Or.inl h
      · exact Or.inr rfl

theorem cacheInv_addDocToCache {V : Vault} {ign : List String} {c : List FrontmatterField}
    (hinv : CacheInv V ign c) (d : Doc) (hfresh : d.path ∉ V.map Doc.path) :
    CacheInv (V ++ [d]) ign (addDocToCache ign d c) := by
  refine ⟨nodupNames_addDocToCache ign d c hinv.nodupNames, ?_, ?_⟩
  · intro k f hf
    rw [lookupF_addDocToCache] at hf
    by_cases hcond : k ∈ docKeys d ∧ k ∉ ign
    · rw [if_pos hcond] at hf
      cases hck : lookupF c k with
      | some f₀ =>
        rw [hck, Option.getD_some] at hf
        obtain ⟨hname, hnd, hcount, hign, _, hmem⟩ := hinv.found k f₀ hck
        have hb := bumpField_found d k f₀ hname hnd hcount hign hmem hfresh hcond.1
        rw [Option.some.inj hf] at hb
        exact hb
      | none =>
        rw [hck, Option.getD_none] at hf
        have hmem0 : ∀ p, p ∈ ([] : List String) ↔ vaultDeclares V p k := by
          intro p
          simp only [List.not_mem_nil, false_iff]
          rcases hinv.missing k hck with hig | hnone
          · exact absurd hig hcond.2
          · exact hnone p
        have hb := bumpField_found d k ⟨k, 0, [], none⟩ rfl List.nodup_nil rfl
          hcond.2 hmem0 hfresh hcond.1
        rw [Option.some.inj hf] at hb
        exact hb
    · rw [if_neg hcond] at hf
      obtain ⟨hname, hnd, hcount, hign, hne, hmem⟩ := hinv.found k f hf
      refine ⟨hname, hnd, hcount, hign, hne, ?_⟩
      intro p
      rw [vaultDeclares_append_singleton, hmem p]
      constructor
      · exact Or.inl
      · rintro (h | ⟨rfl, hk⟩)
        · exact h
        · exact absurd ⟨hk, hign⟩ hcond
  · intro k hf
    rw [lookupF_addDocToCache] at hf
    by_cases hcond : k ∈ docKeys d ∧ k ∉ ign
    · rw [if_pos hcond] at hf
      exact absurd hf (by simp)
    · rw [if_neg hcond] at hf
      rcases hinv.missing k hf with hig | hnone
      · exact Or.inl hig
      · by_cases hig : k ∈ ign
        · exact Or.inl hig
        · refine Or.inr (fun p hc => ?_)
          rw [vaultDeclares_append_singleton] at hc
          rcases hc with h | ⟨_, hk⟩
          · exact hnone p h
          · exact hcond ⟨hk, hig⟩

/-! ## Invariant preservation: removing a document -/

theorem names_map_pres (g : FrontmatterField → FrontmatterField)
    (hg : ∀ f, (g f).name = f.name) (c : List FrontmatterField) :
    (c.map g).map FrontmatterField.name = c.map FrontmatterField.name := by
  rw [List.map_map]
  exact List.map_congr_left (fun f _ => hg f)

theorem lookupF_removeFileFromCache (p₀ k : String) (c : List FrontmatterField)
    (h : (c.map FrontmatterField.name).Nodup) :
    lookupF (removeFileFromCache p₀ c) k =
      match lookupF c k with
      | none => none
      | some f₀ =>
        if 0 < (removeFileFromField p₀ f₀).count then some (removeFileFromField p₀ f₀)
        else none := by
  unfold removeFileFromCache
  rw [lookupF_filter _ k _
      (by rw [names_map_pres (removeFileFromField p₀) (fun f => rfl)]; exact h),
    lookupF_map_pres (removeFileFromField p₀) (fun f => rfl) k]
  cases lookupF c k with
  | none => rfl
  | some f₀ =>
    show (if decide (0 < (removeFileFromField p₀ f₀).count) = true
        then some (removeFileFromField p₀ f₀) else none) =
      (if 0 < (removeFileFromField p₀ f₀).count then some (removeFileFromField p₀ f₀)
        else none)
    by_cases hp : 0 < (removeFileFromField p₀ f₀).count
    · rw [if_pos (decide_eq_true hp), if_pos hp]
    · rw [if_neg (by simpa using hp), if_neg hp]

theorem cacheInv_removeFileFromCache {V : Vault} {ign : List String}
    {c : List FrontmatterField} (hinv : CacheInv V ign c) (p₀ : String) :
    CacheInv (V.filter (fun d => d.path ≠ p₀)) ign (removeFileFromCache p₀ c) := by
  have hnames : ((removeFileFromCache p₀ c).map FrontmatterField.name).Nodup := by
    unfold removeFileFromCache
    refine List.Nodup.sublist (List.Sublist.map _ (List.filter_sublist _)) ?_
    rw [names_map_pres (removeFileFromField p₀) (fun f => rfl)]
    exact hinv.nodupNames
  refine ⟨hnames, ?_, ?_⟩
  · intro k f hf
    rw [lookupF_removeFileFromCache p₀ k c hinv.nodupNames] at hf
    cases hck : lookupF c k with
    | none => rw [hck] at hf; cases hf
    | some f₀ =>
      rw [hck] at hf
      have hf2 : (if 0 < (removeFileFromField p₀ f₀).count
          then some (removeFileFromField p₀ f₀) else none) = some f := hf
      by_cases hpos : 0 < (removeFileFromField p₀ f₀).count
      · rw [if_pos hpos] at hf2
        obtain ⟨hname, hnd, hcount, hign, hne, hmem⟩ := hinv.found k f₀ hck
        rw [← Option.some.inj hf2]
        refine ⟨hname, List.Nodup.filter _ hnd, rfl, hign, ?_, ?_⟩
        · exact List.length_pos.mp hpos
        · intro p
          rw [vaultDeclares_filter_ne]
          show p ∈ f₀.files.filter (fun q => q ≠ p₀) ↔ _
          rw [List.mem_filter]
          constructor
          · rintro ⟨hp, hne'⟩
            exact ⟨(hmem p).mp hp, by simpa using hne'⟩
          · rintro ⟨hp, hne'⟩
            exact ⟨(hmem p).mpr hp, by simpa using hne'⟩
      · rw [if_neg hpos] at hf2
        cases hf2
  · intro k hf
    rw [lookupF_removeFileFromCache p₀ k c hinv.nodupNames] at hf
    cases hck : lookupF c k with
    | none =>
      rcases hinv.missing k hck with hig | hnone
      · exact Or.inl hig
      · exact Or.inr (fun p hc => hnone p ((vaultDeclares_filter_ne V p₀ p k).mp hc).1)
    | some f₀ =>
      rw [hck] at hf
      have hf2 : (if 0 < (removeFileFromField p₀ f₀).count
          then some (removeFileFromField p₀ f₀) else none) = none := hf
      by_cases hpos : 0 < (removeFileFromField p₀ f₀).count
      · rw [if_pos hpos] at hf2
        cases hf2
      · obtain ⟨hname, hnd, hcount, hign, hne, hmem⟩ := hinv.found k f₀ hck
        refine Or.inr (fun p hc => ?_)
        rw [vaultDeclares_filter_ne] at hc
        have hpf : p ∈ f₀.files := (hmem p).mpr hc.1
        have hmemf : p ∈ f₀.files.filter (fun q => q ≠ p₀) :=
          List.mem_filter.mpr ⟨hpf, by simpa using hc.2⟩
        have hlen : (f₀.files.filter (fun q => q ≠ p₀)).length = 0 :=
          Nat.eq_zero_of_not_pos hpos
        rw [List.length_eq_zero] at hlen
        rw [hlen] at hmemf
        cases hmemf

/-! ## Invariant preservation: renaming a document -/

theorem lookupF_renameInCache (o n k : String) (c : List FrontmatterField) :
    lookupF (renameInCache o n c) k = (lookupF c k).map (renameFileInField o n) := by
  unfold renameInCache
  exact lookupF_map_pres (renameFileInField o n) (fun f => rfl) k c

theorem cacheInv_renameInCache {V : Vault} {ign : List String}
    {c : List FrontmatterField} (hinv : CacheInv V ign c) (o n : String)
    (hn : n ∉ V.map Doc.path) :
    CacheInv (applyVault (MutEvent.rename o n) V) ign (renameInCache o n c) := by
  have hnames : ((renameInCache o n c).map FrontmatterField.name).Nodup := by
    unfold renameInCache
    rw [names_map_pres (renameFileInField o n) (fun f => rfl)]
    exact hinv.nodupNames
  refine ⟨hnames, ?_, ?_⟩
  · intro k f hf
    rw [lookupF_renameInCache] at hf
    cases hck : lookupF c k with
    | none => rw [hck] at hf; cases hf
    | some f₀ =>
      rw [hck] at hf
      have hf' : renameFileInField o n f₀ = f := Option.some.inj hf
      obtain ⟨hname, hnd, hcount, hign, hne, hmem⟩ := hinv.found k f₀ hck
      have hfiles_paths : ∀ q ∈ f₀.files, q ∈ V.map Doc.path :=
        fun q hq => vaultDeclares_mem_paths ((hmem q).mp hq)
      rw [← hf']
      refine ⟨hname, ?_, by simpa [renameFileInField] using hcount, hign,
        by simpa [renameFileInField] using hne, ?_⟩
      · refine List.Nodup.map_on ?_ hnd
        intro a ha b hb hab
        by_cases hao : a = o <;> by_cases hbo : b = o
        · rw [hao, hbo]
        · rw [if_pos hao, if_neg hbo] at hab
          exact absurd (hab ▸ hfiles_paths b hb) hn
        · rw [if_neg hao, if_pos hbo] at hab
          exact absurd (hab.symm ▸ hfiles_paths a ha) hn
        · rwa [if_neg hao, if_neg hbo] at hab
      · intro p
        rw [vaultDeclares_rename]
        show p ∈ f₀.files.map (fun q => if q = o then n else q) ↔ _
        rw [List.mem_map]
        constructor
        · rintro ⟨q, hq, hqp⟩
          exact ⟨q, (hmem q).mp hq, hqp⟩
        · rintro ⟨q, hq, hqp⟩
          exact ⟨q, (hmem q).mpr hq, hqp⟩
  · intro k hf
    rw [lookupF_renameInCache] at hf
    cases hck : lookupF c k with
    | some f₀ => rw [hck] at hf; cases hf
    | none =>
      rcases hinv.missing k hck with hig | hnone
      · exact Or.inl hig
      · refine Or.inr (fun p hc => ?_)
        rw [vaultDeclares_rename] at hc
        obtain ⟨q, hq, _⟩ := hc
        exact hnone q hq

/-! ## Invariant preservation: events and runs -/

theorem vaultWF_applyVault {V : Vault} (hV : vaultWF V) (e : MutEvent)
    (he : mutEventWF V e) : vaultWF (applyVault e V) := by
  cases e with
  | create d now =>
    have hfresh : d.path ∉ V.map Doc.path := he
    show ((V ++ [d]).map Doc.path).Nodup
    rw [List.map_append]
    refine List.Nodup.append hV (by simp) ?_
    intro a ha hb
    simp only [List.map_cons, List.map_nil, List.mem_singleton] at hb
    subst hb
    exact hfresh ha
  | change p fm now =>
    have hpaths : (applyVault (MutEvent.change p fm now) V).map Doc.path =
        V.map Doc.path := by
      show ((V.map _).map Doc.path) = _
      rw [List.map_map]
      exact List.map_congr_left (fun d _ => changeDoc_path p fm d)
    show ((applyVault (MutEvent.change p fm now) V).map Doc.path).Nodup
    rw [hpaths]; exact hV
  | delete p =>
    exact List.Nodup.sublist (List.Sublist.map _ (List.filter_sublist _)) hV
  | rename o n =>
    have hn : n ∉ V.map Doc.path := he
    have hpaths : (applyVault (MutEvent.rename o n) V).map Doc.path =
        (V.map Doc.path).map (fun q => if q = o then n else q) := by
      show ((V.map _).map Doc.path) = _
      rw [List.map_map, List.map_map]
      exact List.map_congr_left (fun d _ => renameDoc_path o n d)
    show ((applyVault (MutEvent.rename o n) V).map Doc.path).Nodup
    rw [hpaths]
    refine List.Nodup.map_on ?_ hV
    intro a ha b hb hab
    by_cases hao : a = o <;> by_cases hbo : b = o
    · rw [hao, hbo]
    · rw [if_pos hao, if_neg hbo] at hab
      exact absurd (hab ▸ hb) hn
    · rw [if_neg hao, if_pos hbo] at hab
      exact absurd (hab.symm ▸ ha) hn
    · rwa [if_neg hao, if_neg hbo] at hab

theorem addFileToCache_cache (ign : List String) (d : Doc) (now : Nat)
    (s : PluginState) :
    (addFileToCache ign d now s).cache = addDocToCache ign d s.cache := by
  obtain ⟨p, fm⟩ := d
  cases fm <;> rfl

theorem cacheInv_applyMutEvent {V : Vault} {st : PluginSettings} {s : PluginState}
    (hinv : CacheInv V st.ignoreFields s.cache) (_hV : vaultWF V) (e : MutEvent)
    (he : mutEventWF V e) :
    CacheInv (applyVault e V) st.ignoreFields (applyMutEvent st e s).cache := by
  cases e with
  | create d now =>
    have h2 : (applyMutEvent st (MutEvent.create d now) s).cache =
        addDocToCache st.ignoreFields d s.cache := addFileToCache_cache _ _ _ _
    rw [h2]
    exact cacheInv_addDocToCache hinv d he
  | change p fm now =>
    have hrem := cacheInv_removeFileFromCache hinv p
    have hfresh : (⟨p, fm⟩ : Doc).path ∉
        (V.filter (fun d => d.path ≠ p)).map Doc.path := by
      intro hc
      obtain ⟨d, hd, hdp⟩ := List.mem_map.mp hc
      rw [List.mem_filter] at hd
      exact (by simpa using hd.2 : d.path ≠ p) hdp
    have hadd := cacheInv_addDocToCache hrem ⟨p, fm⟩ hfresh
    have h2 : (applyMutEvent st (MutEvent.change p fm now) s).cache =
        addDocToCache st.ignoreFields ⟨p, fm⟩ (removeFileFromCache p s.cache) :=
      addFileToCache_cache _ _ _ _
    rw [h2]
    exact CacheInv.congr (fun p' k => (vaultDeclares_change V p fm now he p' k).symm) hadd
  | delete p =>
    exact cacheInv_removeFileFromCache hinv p
  | rename o n =>
    exact cacheInv_renameInCache hinv o n he

theorem runMut_cons (st : PluginSettings) (e : MutEvent) (es : List MutEvent)
    (V : Vault) (s : PluginState) :
    runMut st (e :: es) (V, s) = runMut st es (applyVault e V, applyMutEvent st e s) := rfl

theorem cacheInv_runMut (st : PluginSettings) :
    ∀ (es : List MutEvent) (V : Vault) (s : PluginState),
      vaultWF V → mutEventsWF V es → CacheInv V st.ignoreFields s.cache →
      vaultWF (runMut st es (V, s)).1 ∧
        CacheInv (runMut st es (V, s)).1 st.ignoreFields (runMut st es (V, s)).2.cache
  | [], _, _, hV, _, hinv => ⟨hV, hinv⟩
  | e :: es, V, s, hV, hes, hinv => by
    obtain ⟨he, hes'⟩ := hes
    rw [runMut_cons]
    exact cacheInv_runMut st es _ _ (vaultWF_applyVault hV e he)
      hes' (cacheInv_applyMutEvent hinv hV e he)

/-! ## The rebuild refines the incremental add (modulo `valueStats`) -/

theorem stripField_rebuildBumpField (a : Bool) (p : String) (v : Value)
    (f : FrontmatterField) :
    stripField (rebuildBumpField a p v f) = bumpField p (stripField f) := by
  by_cases h : p ∈ f.files
  · unfold rebuildBumpField bumpField stripField
    simp [h]
  · unfold rebuildBumpField bumpField stripField
    simp [h]

theorem stripStats_any_name (k : String) (c : List FrontmatterField) :
    (stripStats c).any (fun f => f.name = k) = c.any (fun f => f.name = k) := by
  unfold stripStats
  rw [List.any_map]
  rfl

theorem stripStats_rebuildAddEntry (a : Bool) (p k : String) (v : Value)
    (c : List FrontmatterField) :
    stripStats (rebuildAddEntry a p k v c) = addKeyToCache p k (stripStats c) := by
  by_cases hc : c.any (fun f => f.name = k) = true
  · have h1 : rebuildAddEntry a p k v c
        = mutateFirst (fun f => f.name = k) (rebuildBumpField a p v) c := by
      unfold rebuildAddEntry
      rw [if_pos hc]
    have h2 : addKeyToCache p k (stripStats c)
        = mutateFirst (fun f => f.name = k) (bumpField p) (stripStats c) := by
      unfold addKeyToCache
      rw [if_pos (by rw [stripStats_any_name]; exact hc)]
    rw [h1, h2]
    unfold stripStats
    exact mutateFirst_map (fun f => f.name = k) (fun f => f.name = k)
      (rebuildBumpField a p v) (bumpField p) stripField (fun x => rfl)
      (fun x _ => stripField_rebuildBumpField a p v x) c
  · have hno : ∀ x ∈ c, ¬ (fun f => decide (f.name = k)) x = true := by
      intro x hx hcontra
      exact hc (List.any_eq_true.mpr ⟨x, hx, hcontra⟩)
    have h1 : rebuildAddEntry a p k v c
        = c ++ [rebuildBumpField a p v
            (⟨k, 0, [], if a then some ⟨0, [], []⟩ else none⟩ : FrontmatterField)] := by
      unfold rebuildAddEntry
      rw [if_neg hc, mutateFirst_append_left _ _ _ c hno]
      simp [mutateFirst]
    have h2 : addKeyToCache p k (stripStats c)
        = stripStats c ++ [bumpField p (⟨k, 0, [], none⟩ : FrontmatterField)] := by
      unfold addKeyToCache
      rw [if_neg (by rw [stripStats_any_name]; exact hc)]
    rw [h1, h2]
    unfold stripStats
    rw [List.map_append]
    simp only [List.map_cons, List.map_nil]
    rw [stripField_rebuildBumpField]
    rfl

theorem stripStats_foldRebuildEntries (st : PluginSettings) (p : String) :
    ∀ (entries : List (String × Value)) (c : List FrontmatterField),
      stripStats (entries.foldl (fun fs kv => if kv.1 ∈ st.ignoreFields then fs
          else rebuildAddEntry st.analyzeValues p kv.1 kv.2 fs) c)
        = addEntriesToCache st.ignoreFields p entries (stripStats c)
  | [], _ => rfl
  | (k₀, v) :: rest, c => by
    rw [List.foldl_cons, addEntriesToCache_cons]
    by_cases hig : k₀ ∈ st.ignoreFields
    · rw [if_pos hig, if_pos hig]
      exact stripStats_foldRebuildEntries st p rest c
    · rw [if_neg hig, if_neg hig,
        stripStats_foldRebuildEntries st p rest _, stripStats_rebuildAddEntry]

theorem processDoc_fields (st : PluginSettings) (b : Bool) (total : Nat)
    (acc : RebuildAcc) (d : Doc) :
    (processDoc st b total acc d).fields = rebuildAddDoc st d acc.fields := by
  obtain ⟨p, fm⟩ := d
  cases fm <;> rfl

theorem stripStats_rebuildAddDoc (st : PluginSettings) (d : Doc)
    (c : List FrontmatterField) :
    stripStats (rebuildAddDoc st d c) = addDocToCache st.ignoreFields d (stripStats c) := by
  obtain ⟨p, fm⟩ := d
  cases fm with
  | none => rfl
  | some fm => exact stripStats_foldRebuildEntries st p (flattenFrontmatter fm "") c

theorem foldl_processDoc_fields (st : PluginSettings) (b : Bool) (total : Nat) :
    ∀ (V : Vault) (acc : RebuildAcc),
      (V.foldl (processDoc st b total) acc).fields
        = V.foldl (fun fs d => rebuildAddDoc st d fs) acc.fields
  | [], _ => rfl
  | d :: V, acc => by
    rw [List.foldl_cons, List.foldl_cons, foldl_processDoc_fields st b total V _,
      processDoc_fields]

theorem stripStats_foldl_rebuildAddDoc (st : PluginSettings) :
    ∀ (V : Vault) (c : List FrontmatterField),
      stripStats (V.foldl (fun fs d => rebuildAddDoc st d fs) c)
        = V.foldl (fun fs d => addDocToCache st.ignoreFields d fs) (stripStats c)
  | [], _ => rfl
  | d :: V, c => by
    rw [List.foldl_cons, List.foldl_cons, stripStats_foldl_rebuildAddDoc st V _,
      stripStats_rebuildAddDoc]

theorem cacheInv_nil (V : Vault) (ign : List String) (hV : ∀ d ∈ V, False) :
    CacheInv V ign [] := by
  refine ⟨by simp, ?_, ?_⟩
  · intro k f hf
    cases hf
  · intro k _
    refine Or.inr (fun p hc => ?_)
    obtain ⟨d, hd, _⟩ := hc
    exact hV d hd

theorem cacheInv_foldl_addDoc (ign : List String) (V : Vault) (hWF : vaultWF V) :
    CacheInv V ign (V.foldl (fun fs d => addDocToCache ign d fs) []) := by
  induction V using List.reverseRecOn with
  | nil => exact cacheInv_nil [] ign (by simp)
  | append_singleton V d ih =>
    have hsplit : ((V.map Doc.path) ++ [d.path]).Nodup := by
      have : (V ++ [d]).map Doc.path = V.map Doc.path ++ [d.path] := by
        rw [List.map_append]; rfl
      rw [← this]; exact hWF
    rw [List.nodup_append] at hsplit
    have hV : vaultWF V := hsplit.1
    have hfresh : d.path ∉ V.map Doc.path := by
      intro hc
      exact hsplit.2.2 hc (by simp)
    rw [List.foldl_append]
    exact cacheInv_addDocToCache (ih hV) d hfresh

theorem cacheInv_of_stripStats {V : Vault} {ign : List String}
    {c : List FrontmatterField} (h : CacheInv V ign (stripStats c)) :
    CacheInv V ign c := by
  have hnames : (c.map FrontmatterField.name).Nodup := by
    have hn := h.nodupNames
    rwa [stripStats, names_map_pres stripField (fun f => rfl)] at hn
  refine ⟨hnames, ?_, ?_⟩
  · intro k f hf
    have hf2 : lookupF (stripStats c) k = some (stripField f) := by
      rw [stripStats, lookupF_map_pres stripField (fun f => rfl) k, hf]
      rfl
    obtain ⟨h1, h2, h3, h4, h5, h6⟩ := h.found k _ hf2
    exact ⟨h1, h2, h3, h4, h5, h6⟩
  · intro k hf
    apply h.missing k
    rw [stripStats, lookupF_map_pres stripField (fun f => rfl) k, hf]
    rfl

theorem stripStats_applyTopValuesTrim (a : Bool) (c : List FrontmatterField) :
    stripStats (applyTopValuesTrim a c) = stripStats c := by
  unfold applyTopValuesTrim
  split
  · unfold stripStats
    rw [List.map_map]
    exact List.map_congr_left (fun f _ => rfl)
  · rfl

/-! ## Sorting: permutation, order, stability -/

theorem insertFieldDesc_perm (x : FrontmatterField) :
    ∀ l : List FrontmatterField, List.Perm (insertFieldDesc x l) (x :: l)
  | [] => List.Perm.refl _
  | y :: ys => by
    unfold insertFieldDesc
    split
    · exact List.Perm.refl _
    · exact ((insertFieldDesc_perm x ys).cons y).trans (List.Perm.swap x y ys)

theorem sortFieldsDesc_perm : ∀ l : List FrontmatterField, List.Perm (sortFieldsDesc l) l
  | [] => List.Perm.refl _
  | x :: l => by
    unfold sortFieldsDesc
    rw [List.foldr_cons]
    exact (insertFieldDesc_perm x _).trans ((sortFieldsDesc_perm l).cons x)

theorem cacheInv_perm {V : Vault} {ign : List String} {a b : List FrontmatterField}
    (hab : List.Perm a b) (h : CacheInv V ign a) : CacheInv V ign b := by
  have hnames : (b.map FrontmatterField.name).Nodup :=
    ((hab.map FrontmatterField.name).nodup_iff).mp h.nodupNames
  have hlookup : ∀ k, lookupF b k = lookupF a k := by
    intro k
    cases hk : lookupF a k with
    | some f =>
      obtain ⟨hmem, hname⟩ := lookupF_mem a k f hk
      have hb := lookupF_of_mem b hnames f (hab.mem_iff.mp hmem)
      rw [hname] at hb
      rw [hb]
    | none =>
      rw [lookupF_eq_none_iff] at hk ⊢
      intro f hf
      exact hk f (hab.mem_iff.mpr hf)
  refine ⟨hnames, ?_, ?_⟩
  · intro k f hf
    exact h.found k f (by rw [← hlookup]; exact hf)
  · intro k hf
    exact h.missing k (by rw [← hlookup]; exact hf)

theorem getFieldsRebuild_fst (st : PluginSettings) (b : Bool) (V : Vault) :
    (getFieldsRebuild st b V).1 =
      sortFieldsDesc (applyTopValuesTrim st.analyzeValues
        ((V.foldl (processDoc st b V.length) ⟨[], 0, []⟩).fields)) := rfl

theorem cacheInv_getFieldsRebuild (st : PluginSettings) (b : Bool) (V : Vault)
    (hV : vaultWF V) : CacheInv V st.ignoreFields (getFieldsRebuild st b V).1 := by
  rw [getFieldsRebuild_fst]
  apply cacheInv_perm (sortFieldsDesc_perm _).symm
  apply cacheInv_of_stripStats
  rw [stripStats_applyTopValuesTrim, foldl_processDoc_fields,
    stripStats_foldl_rebuildAddDoc]
  exact cacheInv_foldl_addDoc st.ignoreFields V hV

/-! ## Two caches in sync with the same vault agree (modulo order and stats) -/

theorem cacheInv_names_char {V : Vault} {ign : List String} {c : List FrontmatterField}
    (hc : CacheInv V ign c) (k : String) :
    (∃ f ∈ c, f.name = k) ↔ (k ∉ ign ∧ ∃ p, vaultDeclares V p k) := by
  constructor
  · rintro ⟨f, hf, rfl⟩
    have hlf := lookupF_of_mem c hc.nodupNames f hf
    obtain ⟨h1, h2, h3, h4, h5, h6⟩ := hc.found f.name f hlf
    obtain ⟨p, hp⟩ := List.exists_mem_of_ne_nil f.files h5
    exact ⟨h4, p, (h6 p).mp hp⟩
  · rintro ⟨hig, p, hdecl⟩
    cases hlf : lookupF c k with
    | some f => exact ⟨f, (lookupF_mem c k f hlf).1, (lookupF_mem c k f hlf).2⟩
    | none =>
      rcases hc.missing k hlf with h | h
      · exact absurd h hig
      · exact absurd hdecl (h p)

theorem cacheEquiv_of_cacheInv {V : Vault} {ign : List String}
    {a b : List FrontmatterField} (ha : CacheInv V ign a) (hb : CacheInv V ign b) :
    cacheEquiv a b := by
  constructor
  · intro k
    rw [cacheInv_names_char ha k, cacheInv_names_char hb k]
  · intro f hf g hg hname
    have hlf := lookupF_of_mem a ha.nodupNames f hf
    have hlg := lookupF_of_mem b hb.nodupNames g hg
    obtain ⟨_, hfnd, hfcnt, _, _, hfmem⟩ := ha.found f.name f hlf
    obtain ⟨_, hgnd, hgcnt, _, _, hgmem⟩ := hb.found g.name g hlg
    have hmemeq : ∀ p, p ∈ f.files ↔ p ∈ g.files := by
      intro p
      rw [hfmem p, hname, ← hgmem p]
    refine ⟨?_, hmemeq⟩
    rw [hfcnt, hgcnt, ← List.toFinset_card_of_nodup hfnd,
      ← List.toFinset_card_of_nodup hgnd]
    congr 1
    ext p
    simp only [List.mem_toFinset]
    exact hmemeq p

theorem cacheInv_member_props {V : Vault} {ign : List String} {c : List FrontmatterField}
    (h : CacheInv V ign c) (f : FrontmatterField) (hf : f ∈ c) :
    f.count = f.files.length ∧ f.files.Nodup ∧ f.name ∉ ign := by
  have hlf := lookupF_of_mem c h.nodupNames f hf
  obtain ⟨_, h2, h3, h4, _, _⟩ := h.found f.name f hlf
  exact ⟨h3, h2, h4⟩

/-! ## `getFields`: cache hit and cache miss -/

theorem getFields_hit (st : PluginSettings) (b : Bool) (V : Vault) (now : Nat)
    (s : PluginState) (hne : s.cache ≠ [])
    (httl : now - s.lastUpdate < st.cacheTTL * 1000) :
    getFields st b V now s =
      { result := s.cache, state := s, rebuilt := false, scanned := 0,
        progressCalls := [] } := by
  unfold getFields
  rw [if_pos ⟨List.length_pos.mpr hne, httl⟩]

theorem getFields_miss (st : PluginSettings) (b : Bool) (V : Vault) (now : Nat)
    (s : PluginState)
    (h : ¬(0 < s.cache.length ∧ now - s.lastUpdate < st.cacheTTL * 1000)) :
    getFields st b V now s =
      { result := (getFieldsRebuild st b V).1,
        state := { cache := (getFieldsRebuild st b V).1, lastUpdate := now },
        rebuilt := true, scanned := V.length,
        progressCalls := (getFieldsRebuild st b V).2 } := by
  unfold getFields
  rw [if_neg h]

theorem getFields_miss_of_empty (st : PluginSettings) (b : Bool) (V : Vault)
    (now : Nat) (s : PluginState) (h : s.cache = []) :
    getFields st b V now s =
      { result := (getFieldsRebuild st b V).1,
        state := { cache := (getFieldsRebuild st b V).1, lastUpdate := now },
        rebuilt := true, scanned := V.length,
        progressCalls := (getFieldsRebuild st b V).2 } := by
  apply getFields_miss
  rintro ⟨hpos, _⟩
  rw [h] at hpos
  exact absurd hpos (by simp)

/-! ## Idempotence of the create path -/

theorem any_of_lookupF_some {c : List FrontmatterField} {k : String}
    {f : FrontmatterField} (h : lookupF c k = some f) :
    c.any (fun f => f.name = k) = true := by
  obtain ⟨hmem, hname⟩ := lookupF_mem c k f h
  exact List.any_eq_true.mpr ⟨f, hmem, by simp [hname]⟩

theorem mutateFirst_eq_self_of_find {α : Type} (p : α → Bool) (g : α → α) :
    ∀ (l : List α) (x₀ : α), l.find? p = some x₀ → g x₀ = x₀ → mutateFirst p g l = l
  | [], _, hfind, _ => by cases hfind
  | x :: xs, x₀, hfind, hg => by
    by_cases hx : p x = true
    · rw [List.find?_cons_of_pos _ hx] at hfind
      obtain rfl := Option.some.inj hfind
      unfold mutateFirst
      rw [if_pos hx, hg]
    · rw [List.find?_cons_of_neg _ hx] at hfind
      unfold mutateFirst
      rw [if_neg hx, mutateFirst_eq_self_of_find p g xs x₀ hfind hg]

theorem addKeyToCache_id {p k : String} {c : List FrontmatterField}
    {f : FrontmatterField} (hf : lookupF c k = some f) (hpf : p ∈ f.files) :
    addKeyToCache p k c = c := by
  unfold addKeyToCache
  rw [if_pos (any_of_lookupF_some hf)]
  exact mutateFirst_eq_self_of_find _ _ c f hf (bumpField_of_mem hpf)

theorem addEntriesToCache_id (ign : List String) (p : String) :
    ∀ (entries : List (String × Value)) (c : List FrontmatterField),
      (∀ k ∈ entries.map Prod.fst, k ∉ ign →
        ∃ f, lookupF c k = some f ∧ p ∈ f.files) →
      addEntriesToCache ign p entries c = c
  | [], _, _ => rfl
  | (k₀, v) :: rest, c, h => by
    rw [addEntriesToCache_cons]
    by_cases hig : k₀ ∈ ign
    · rw [if_pos hig]
      exact addEntriesToCache_id ign p rest c
        (fun k hk hkig => h k (List.mem_cons_of_mem _ hk) hkig)
    · rw [if_neg hig]
      obtain ⟨f, hf, hpf⟩ := h k₀ (by simp) hig
      rw [addKeyToCache_id hf hpf]
      exact addEntriesToCache_id ign p rest c
        (fun k hk hkig => h k (List.mem_cons_of_mem _ hk) hkig)

theorem lookupF_addEntries_present (ign : List String) (p : String)
    (entries : List (String × Value)) (c : List FrontmatterField) :
    ∀ k ∈ entries.map Prod.fst, k ∉ ign →
      ∃ f, lookupF (addEntriesToCache ign p entries c) k = some f ∧ p ∈ f.files := by
  intro k hk hkig
  rw [lookupF_addEntriesToCache, if_pos ⟨hk, hkig⟩]
  exact ⟨_, rfl, (mem_bumpField_files p p _).mpr (Or.inr rfl)⟩

theorem updateCacheOnCreate_idem (ign : List String) (d : Doc) (now : Nat)
    (s : PluginState) :
    updateCacheOnCreate ign d now (updateCacheOnCreate ign d now s) =
      updateCacheOnCreate ign d now s := by
  obtain ⟨p, fm⟩ := d
  cases fm with
  | none => rfl
  | some fm =>
    show (⟨addEntriesToCache ign p (flattenFrontmatter fm "")
        (addEntriesToCache ign p (flattenFrontmatter fm "") s.cache), now⟩ : PluginState) = _
    rw [addEntriesToCache_id ign p (flattenFrontmatter fm "") _
      (lookupF_addEntries_present ign p (flattenFrontmatter fm "") s.cache)]
    rfl

/-! ## Sortedness and stability of the count-descending sort -/

theorem insertFieldDesc_sorted (x : FrontmatterField) :
    ∀ l : List FrontmatterField,
      List.Pairwise (fun a b => b.count ≤ a.count) l →
      List.Pairwise (fun a b => b.count ≤ a.count) (insertFieldDesc x l)
  | [], _ => by simp [insertFieldDesc]
  | y :: ys, hl => by
    rw [List.pairwise_cons] at hl
    unfold insertFieldDesc
    by_cases h : y.count ≤ x.count
    · rw [if_pos h]
      refine List.Pairwise.cons ?_ (List.pairwise_cons.mpr hl)
      intro b hb
      rcases List.mem_cons.mp hb with rfl | hb2
      · exact h
      · exact le_trans (hl.1 b hb2) h
    · rw [if_neg h]
      refine List.Pairwise.cons ?_ (insertFieldDesc_sorted x ys hl.2)
      intro b hb
      rcases List.mem_cons.mp ((insertFieldDesc_perm x ys).mem_iff.mp hb) with rfl | hb2
      · exact le_of_not_le h
      · exact hl.1 b hb2

theorem sortFieldsDesc_sorted :
    ∀ l : List FrontmatterField,
      List.Pairwise (fun a b => b.count ≤ a.count) (sortFieldsDesc l)
  | [] => List.Pairwise.nil
  | x :: l => by
    show List.Pairwise _ (insertFieldDesc x (sortFieldsDesc l))
    exact insertFieldDesc_sorted x _ (sortFieldsDesc_sorted l)

theorem insertFieldDesc_filter_count (x : FrontmatterField) (n : Nat) :
    ∀ l : List FrontmatterField,
      (insertFieldDesc x l).filter (fun f => f.count = n)
        = if x.count = n then x :: l.filter (fun f => f.count = n)
          else l.filter (fun f => f.count = n)
  | [] => by
    by_cases h : x.count = n
    · rw [if_pos h]
      simp [insertFieldDesc, List.filter_cons, h]
    · rw [if_neg h]
      simp [insertFieldDesc, List.filter_cons, h]
  | y :: ys => by
    unfold insertFieldDesc
    by_cases h : y.count ≤ x.count
    · rw [if_pos h]
      by_cases hx : x.count = n
      · rw [if_pos hx, List.filter_cons, if_pos (by simp [hx])]
      · rw [if_neg hx, List.filter_cons, if_neg (by simp [hx])]
    · rw [if_neg h, List.filter_cons]
      by_cases hy : y.count = n
      · rw [if_pos (by simp [hy]), insertFieldDesc_filter_count x n ys]
        by_cases hx : x.count = n
        · exact absurd (le_of_eq (by rw [hy, hx])) h
        · rw [if_neg hx, if_neg hx, List.filter_cons, if_pos (by simp [hy])]
      · rw [if_neg (by simp [hy]), insertFieldDesc_filter_count x n ys]
        by_cases hx : x.count = n
        · rw [if_pos hx, if_pos hx, List.filter_cons, if_neg (by simp [hy])]
        · rw [if_neg hx, if_neg hx, List.filter_cons, if_neg (by simp [hy])]

theorem sortFieldsDesc_filter_count (n : Nat) :
    ∀ l : List FrontmatterField,
      (sortFieldsDesc l).filter (fun f => f.count = n) = l.filter (fun f => f.count = n)
  | [] => rfl
  | x :: l => by
    show (insertFieldDesc x (sortFieldsDesc l)).filter _ = _
    rw [insertFieldDesc_filter_count, sortFieldsDesc_filter_count n l, List.filter_cons]
    by_cases hx : x.count = n
    · rw [if_pos hx, if_pos (by simp [hx])]
    · rw [if_neg hx, if_neg (by simp [hx])]

/-! ## The ignore list never leaks into the index -/

theorem notIgnored_names_addKeyToCache {ign : List String} (p k : String)
    (hk : k ∉ ign) (c : List FrontmatterField)
    (h : ∀ k' ∈ c.map FrontmatterField.name, k' ∉ ign) :
    ∀ k' ∈ (addKeyToCache p k c).map FrontmatterField.name, k' ∉ ign := by
  intro k' hk'
  rw [names_addKeyToCache] at hk'
  split at hk'
  · exact h k' hk'
  · rcases List.mem_append.mp hk' with h1 | h1
    · exact h k' h1
    · rw [List.mem_singleton.mp h1]
      exact hk

theorem notIgnored_names_addEntries (ign : List String) (p : String) :
    ∀ (entries : List (String × Value)) (c : List FrontmatterField),
      (∀ k' ∈ c.map FrontmatterField.name, k' ∉ ign) →
      ∀ k' ∈ (addEntriesToCache ign p entries c).map FrontmatterField.name, k' ∉ ign
  | [], _, h => h
  | (k₀, v) :: rest, c, h => by
    rw [addEntriesToCache_cons]
    by_cases hig : k₀ ∈ ign
    · rw [if_pos hig]
      exact notIgnored_names_addEntries ign p rest c h
    · rw [if_neg hig]
      exact notIgnored_names_addEntries ign p rest _
        (notIgnored_names_addKeyToCache p k₀ hig c h)

theorem notIgnored_names_addDoc (ign : List String) (d : Doc)
    (c : List FrontmatterField)
    (h : ∀ k' ∈ c.map FrontmatterField.name, k' ∉ ign) :
    ∀ k' ∈ (addDocToCache ign d c).map FrontmatterField.name, k' ∉ ign := by
  obtain ⟨p, fm⟩ := d
  cases fm with
  | none => exact h
  | some fm => exact notIgnored_names_addEntries ign p (flattenFrontmatter fm "") c h

theorem names_removeFileFromCache_sublist (p : String) (c : List FrontmatterField) :
    List.Sublist ((removeFileFromCache p c).map FrontmatterField.name)
      (c.map FrontmatterField.name) := by
  unfold removeFileFromCache
  have heq := names_map_pres (removeFileFromField p) (fun f => rfl) c
  rw [← heq]
  exact (List.filter_sublist _).map _

theorem names_renameInCache (o n : String) (c : List FrontmatterField) :
    (renameInCache o n c).map FrontmatterField.name = c.map FrontmatterField.name := by
  unfold renameInCache
  exact names_map_pres (renameFileInField o n) (fun f => rfl) c

theorem names_applyTopValuesTrim (a : Bool) (c : List FrontmatterField) :
    (applyTopValuesTrim a c).map FrontmatterField.name = c.map FrontmatterField.name := by
  unfold applyTopValuesTrim
  split
  · exact names_map_pres (fun f => { f with valueStats := f.valueStats.map (fun st => { st with topValues := (sortPairsDesc st.topValues).take 5 }) }) (fun f => rfl) c
  · rfl

theorem names_stripStats (c : List FrontmatterField) :
    (stripStats c).map FrontmatterField.name = c.map FrontmatterField.name := by
  unfold stripStats
  exact names_map_pres stripField (fun f => rfl) c

theorem notIgnored_names_foldl_addDoc (ign : List String) :
    ∀ (V : Vault) (c : List FrontmatterField),
      (∀ k' ∈ c.map FrontmatterField.name, k' ∉ ign) →
      ∀ k' ∈ (V.foldl (fun fs d => addDocToCache ign d fs) c).map FrontmatterField.name,
        k' ∉ ign
  | [], _, h => h
  | d :: V, c, h => by
    rw [List.foldl_cons]
    exact notIgnored_names_foldl_addDoc ign V _ (notIgnored_names_addDoc ign d c h)

theorem notIgnored_names_rebuild (st : PluginSettings) (b : Bool) (V : Vault) :
    ∀ k' ∈ (getFieldsRebuild st b V).1.map FrontmatterField.name, k' ∉ st.ignoreFields := by
  intro k' hk'
  rw [getFieldsRebuild_fst] at hk'
  have h1 := ((sortFieldsDesc_perm _).map FrontmatterField.name).mem_iff.mp hk'
  rw [names_applyTopValuesTrim, foldl_processDoc_fields] at h1
  have h2 : k' ∈ (V.foldl (fun fs d => rebuildAddDoc st d fs)
      ([] : List FrontmatterField)).map FrontmatterField.name := h1
  have hs := names_stripStats
    (V.foldl (fun fs d => rebuildAddDoc st d fs) ([] : List FrontmatterField))
  rw [stripStats_foldl_rebuildAddDoc] at hs
  have h3 : k' ∈ (V.foldl (fun fs d => addDocToCache st.ignoreFields d fs)
      (stripStats [])).map FrontmatterField.name := by rw [hs]; exact h2
  exact notIgnored_names_foldl_addDoc st.ignoreFields V (stripStats []) (by simp [stripStats]) k' h3

theorem notIgnored_cache_applyMutEvent (st : PluginSettings) (e : MutEvent)
    (s : PluginState)
    (h : ∀ k' ∈ s.cache.map FrontmatterField.name, k' ∉ st.ignoreFields) :
    ∀ k' ∈ (applyMutEvent st e s).cache.map FrontmatterField.name,
      k' ∉ st.ignoreFields := by
  cases e with
  | create d now =>
    rw [show (applyMutEvent st (MutEvent.create d now) s).cache
      = addDocToCache st.ignoreFields d s.cache from addFileToCache_cache _ _ _ _]
    exact notIgnored_names_addDoc _ d _ h
  | change p fm now =>
    rw [show (applyMutEvent st (MutEvent.change p fm now) s).cache
      = addDocToCache st.ignoreFields ⟨p, fm⟩ (removeFileFromCache p s.cache)
      from addFileToCache_cache _ _ _ _]
    refine notIgnored_names_addDoc _ _ _ ?_
    intro k' hk'
    exact h k' ((names_removeFileFromCache_sublist p s.cache).subset hk')
  | delete p =>
    intro k' hk'
    exact h k' ((names_removeFileFromCache_sublist p s.cache).subset hk')
  | rename o n =>
    intro k' hk'
    rw [show (applyMutEvent st (MutEvent.rename o n) s).cache
      = renameInCache o n s.cache from rfl, names_renameInCache] at hk'
    exact h k' hk'

theorem notIgnored_cache_getFields_state (st : PluginSettings) (b : Bool) (V : Vault)
    (now : Nat) (s : PluginState)
    (h : ∀ k' ∈ s.cache.map FrontmatterField.name, k' ∉ st.ignoreFields) :
    ∀ k' ∈ (getFields st b V now s).state.cache.map FrontmatterField.name,
      k' ∉ st.ignoreFields := by
  unfold getFields
  split
  · exact h
  · exact fun k' hk' => notIgnored_names_rebuild st b V k' hk'

theorem notIgnored_cache_applySysState (st : PluginSettings) (e : SysEvent) (V : Vault)
    (s : PluginState)
    (h : ∀ k' ∈ s.cache.map FrontmatterField.name, k' ∉ st.ignoreFields) :
    ∀ k' ∈ (applySysState st e V s).cache.map FrontmatterField.name,
      k' ∉ st.ignoreFields := by
  cases e with
  | mutEv e => exact notIgnored_cache_applyMutEvent st e s h
  | refresh now b => exact notIgnored_cache_getFields_state st b V now s h
  | clear =>
    intro k' hk'
    simp [applySysState, clearCache] at hk'

theorem notIgnored_cache_runSys (st : PluginSettings) :
    ∀ (es : List SysEvent) (V : Vault) (s : PluginState),
      (∀ k' ∈ s.cache.map FrontmatterField.name, k' ∉ st.ignoreFields) →
      ∀ k' ∈ (runSys st es (V, s)).2.cache.map FrontmatterField.name,
        k' ∉ st.ignoreFields
  | [], _, _, h => h
  | e :: es, V, s, h => by
    show ∀ k' ∈ (runSys st es
      (applySysVault e V, applySysState st e V s)).2.cache.map FrontmatterField.name, _
    exact notIgnored_cache_runSys st es _ _ (notIgnored_cache_applySysState st e V s h)

/-! ## The flattener versus the specification's reading -/

theorem mergedPath_append (ks : List String) (k : String) :
    mergedPath (ks ++ [k]) = joinKeyStep (mergedPath ks) k := by
  unfold mergedPath
  rw [List.foldl_append]
  rfl

mutual
theorem flattenFrontmatter_eq_merged :
    ∀ (fm : Fields) (anc : List String),
      flattenFrontmatter fm (mergedPath anc) = flattenSpecMerged fm anc
  | Fields.nil, _ => rfl
  | Fields.cons key value rest, anc => by
    show flattenEntryValue value
        (if mergedPath anc = "" then key else mergedPath anc ++ "." ++ key) ++
        flattenFrontmatter rest (mergedPath anc)
      = flattenSpecMergedValue value (anc ++ [key]) ++ flattenSpecMerged rest anc
    rw [flattenFrontmatter_eq_merged rest anc]
    have hkey : (if mergedPath anc = "" then key else mergedPath anc ++ "." ++ key)
        = mergedPath (anc ++ [key]) := by
      rw [mergedPath_append]
      rfl
    rw [hkey, flattenEntryValue_eq_merged value (anc ++ [key])]

theorem flattenEntryValue_eq_merged :
    ∀ (v : Value) (anc : List String),
      flattenEntryValue v (mergedPath anc) = flattenSpecMergedValue v anc
  | Value.vObj fields, anc => flattenFrontmatter_eq_merged fields anc
  | Value.vNull, _ => rfl
  | Value.vStr _, _ => rfl
  | Value.vNum _, _ => rfl
  | Value.vBool _, _ => rfl
  | Value.vArr _, _ => rfl
end

/-! # Claims -/

/-- **C2**: after populating the index by a full rebuild (a `getFields` call
on the empty cache) and then applying any well-formed sequence of the four
incremental mutation paths -- so in particular after every single operation,
since the event sequence is arbitrary -- every `FrontmatterField` of the
index satisfies `count = files.length`, and no document path appears twice
in one record's owner list. -/
theorem claim2_count_matches_owners (st : PluginSettings) (b : Bool) (V₀ : Vault)
    (t₀ : Nat) (es : List MutEvent) (hV : vaultWF V₀) (hes : mutEventsWF V₀ es) :
    ∀ f ∈ (runMut st es (V₀, (getFields st b V₀ t₀ ⟨[], 0⟩).state)).2.cache,
      f.count = f.files.length ∧ f.files.Nodup := by
  have hstate : (getFields st b V₀ t₀ ⟨[], 0⟩).state.cache
      = (getFieldsRebuild st b V₀).1 := by
    rw [getFields_miss_of_empty st b V₀ t₀ ⟨[], 0⟩ rfl]
  have hinv0 : CacheInv V₀ st.ignoreFields (getFields st b V₀ t₀ ⟨[], 0⟩).state.cache := by
    rw [hstate]
    exact cacheInv_getFieldsRebuild st b V₀ hV
  have h := (cacheInv_runMut st es V₀ _ hV hes hinv0).2
  intro f hf
  obtain ⟨h1, h2, _⟩ := cacheInv_member_props h f hf
  exact ⟨h1, h2⟩

/-- Witness for C2 at a concrete input: one document with one field,
rebuilt, then deleted. -/
theorem claim2_count_matches_owners_witness :
    vaultWF [⟨"a.md", some (Fields.cons "x" Value.vNull Fields.nil)⟩] ∧
    mutEventsWF [⟨"a.md", some (Fields.cons "x" Value.vNull Fields.nil)⟩]
      [MutEvent.delete "a.md"] ∧
    ∀ f ∈ (runMut DEFAULT_SETTINGS [MutEvent.delete "a.md"]
        ([⟨"a.md", some (Fields.cons "x" Value.vNull Fields.nil)⟩],
          (getFields DEFAULT_SETTINGS false
            [⟨"a.md", some (Fields.cons "x" Value.vNull Fields.nil)⟩] 0
            ⟨[], 0⟩).state)).2.cache,
      f.count = f.files.length ∧ f.files.Nodup :=
  ⟨by decide, by decide,
    claim2_count_matches_owners DEFAULT_SETTINGS false _ 0 _ (by decide) (by decide)⟩

/-- **C1 counterexample**: with value analysis enabled, create one document
through the incremental path on top of a rebuilt one-document index.  The
incremental index's record for the new field `y` carries no `valueStats`,
while a full rebuild over the resulting two-document set computes
`valueStats` for `y`; hence the claimed identity "including the valueStats
of each record when value analysis is enabled" is false. -/
theorem claim1_counterexample :
    let stA : PluginSettings := ⟨50, [], 600, true, true⟩
    let V₀ : Vault := [⟨"a.md", some (Fields.cons "x" (Value.vStr "1") Fields.nil)⟩]
    let es := [MutEvent.create ⟨"b.md", some (Fields.cons "y" (Value.vStr "2") Fields.nil)⟩ 1]
    let run := runMut stA es (V₀, (getFields stA false V₀ 0 ⟨[], 0⟩).state)
    ((run.2.cache.filter (fun f => f.name = "y")).map (fun f => f.valueStats)
      = [none]) ∧
    (((getFieldsRebuild stA false run.1).1.filter (fun f => f.name = "y")).map
        (fun f => f.valueStats)
      = [some ⟨1, [("2", 1)], [("string", 1)]⟩]) ∧
    ¬ (∀ f ∈ run.2.cache, ∀ g ∈ (getFieldsRebuild stA false run.1).1,
        f.name = g.name → f.valueStats = g.valueStats) := by decide

/-- **C1 (amended)**: starting from a populated index (produced by
`getFields` on a cold cache) and applying any well-formed sequence of
create/change/delete/rename events through the four incremental mutation
paths, the resulting index is equivalent to a full rebuild over the
resulting final document set -- same field names, and for each name the
same document count and the same owning set, ignoring order -- but NOT
including `valueStats`: the incremental paths never create or update
`valueStats`, so equivalence holds for names, counts and owning sets only
(see the counterexample for the `valueStats` divergence). -/
theorem claim1_incremental_matches_rebuild (st : PluginSettings) (b b' : Bool)
    (V₀ : Vault) (t₀ : Nat) (es : List MutEvent) (hV : vaultWF V₀)
    (hes : mutEventsWF V₀ es) :
    cacheEquiv (runMut st es (V₀, (getFields st b V₀ t₀ ⟨[], 0⟩).state)).2.cache
      (getFieldsRebuild st b'
        (runMut st es (V₀, (getFields st b V₀ t₀ ⟨[], 0⟩).state)).1).1 := by
  have hstate : (getFields st b V₀ t₀ ⟨[], 0⟩).state.cache
      = (getFieldsRebuild st b V₀).1 := by
    rw [getFields_miss_of_empty st b V₀ t₀ ⟨[], 0⟩ rfl]
  have hinv0 : CacheInv V₀ st.ignoreFields (getFields st b V₀ t₀ ⟨[], 0⟩).state.cache := by
    rw [hstate]
    exact cacheInv_getFieldsRebuild st b V₀ hV
  obtain ⟨hVf, hinvf⟩ := cacheInv_runMut st es V₀ _ hV hes hinv0
  exact cacheEquiv_of_cacheInv hinvf (cacheInv_getFieldsRebuild st b' _ hVf)

/-- Witness for the amended C1 at a concrete input: a one-document vault, a
create and a rename applied incrementally, compared with a rebuild. -/
theorem claim1_incremental_matches_rebuild_witness :
    vaultWF [⟨"a.md", some (Fields.cons "x" Value.vNull Fields.nil)⟩] ∧
    mutEventsWF [⟨"a.md", some (Fields.cons "x" Value.vNull Fields.nil)⟩]
      [MutEvent.create ⟨"b.md", some (Fields.cons "y" Value.vNull Fields.nil)⟩ 1,
       MutEvent.rename "a.md" "a2.md"] ∧
    cacheEquiv (runMut DEFAULT_SETTINGS
        [MutEvent.create ⟨"b.md", some (Fields.cons "y" Value.vNull Fields.nil)⟩ 1,
         MutEvent.rename "a.md" "a2.md"]
        ([⟨"a.md", some (Fields.cons "x" Value.vNull Fields.nil)⟩],
          (getFields DEFAULT_SETTINGS false
            [⟨"a.md", some (Fields.cons "x" Value.vNull Fields.nil)⟩] 0
            ⟨[], 0⟩).state)).2.cache
      (getFieldsRebuild DEFAULT_SETTINGS true
        (runMut DEFAULT_SETTINGS
          [MutEvent.create ⟨"b.md", some (Fields.cons "y" Value.vNull Fields.nil)⟩ 1,
           MutEvent.rename "a.md" "a2.md"]
          ([⟨"a.md", some (Fields.cons "x" Value.vNull Fields.nil)⟩],
            (getFields DEFAULT_SETTINGS false
              [⟨"a.md", some (Fields.cons "x" Value.vNull Fields.nil)⟩] 0
              ⟨[], 0⟩).state)).1).1 :=
  ⟨by decide, by decide,
    claim1_incremental_matches_rebuild DEFAULT_SETTINGS false true _ 0 _
      (by decide) (by decide)⟩

/-- **C3**: on a populated (non-empty) cache, a `getFields` call strictly
less than `cacheTTL` seconds after `lastUpdate` returns the cached sequence,
scans no document and leaves the state unchanged; a call made once the TTL
has elapsed performs a full rebuild, scans every document, and stores the
new result together with the current time as the new cache state. -/
theorem claim3_ttl_policy (st : PluginSettings) (b : Bool) (V : Vault) (now : Nat)
    (s : PluginState) (hne : s.cache ≠ []) :
    (now - s.lastUpdate < st.cacheTTL * 1000 →
      getFields st b V now s =
        { result := s.cache, state := s, rebuilt := false, scanned := 0,
          progressCalls := [] }) ∧
    (st.cacheTTL * 1000 ≤ now - s.lastUpdate →
      getFields st b V now s =
        { result := (getFieldsRebuild st b V).1,
          state := { cache := (getFieldsRebuild st b V).1, lastUpdate := now },
          rebuilt := true, scanned := V.length,
          progressCalls := (getFieldsRebuild st b V).2 }) := by
  constructor
  · intro h
    exact getFields_hit st b V now s hne h
  · intro h
    apply getFields_miss
    rintro ⟨_, hlt⟩
    exact absurd hlt (not_lt.mpr h)

/-- Witness for C3 at a concrete input: a one-record cache refreshed at
time 0, read at time 5 ms (inside the default 600 s TTL). -/
theorem claim3_ttl_policy_witness :
    ((⟨[⟨"x", 1, ["a.md"], none⟩], 0⟩ : PluginState).cache ≠ []) ∧
    (((5 : Nat) - (⟨[⟨"x", 1, ["a.md"], none⟩], 0⟩ : PluginState).lastUpdate <
        DEFAULT_SETTINGS.cacheTTL * 1000 →
      getFields DEFAULT_SETTINGS false [] 5 ⟨[⟨"x", 1, ["a.md"], none⟩], 0⟩ =
        { result := (⟨[⟨"x", 1, ["a.md"], none⟩], 0⟩ : PluginState).cache,
          state := ⟨[⟨"x", 1, ["a.md"], none⟩], 0⟩, rebuilt := false, scanned := 0,
          progressCalls := [] }) ∧
    (DEFAULT_SETTINGS.cacheTTL * 1000 ≤ (5 : Nat) -
        (⟨[⟨"x", 1, ["a.md"], none⟩], 0⟩ : PluginState).lastUpdate →
      getFields DEFAULT_SETTINGS false [] 5 ⟨[⟨"x", 1, ["a.md"], none⟩], 0⟩ =
        { result := (getFieldsRebuild DEFAULT_SETTINGS false []).1,
          state := ⟨(getFieldsRebuild DEFAULT_SETTINGS false []).1, 5⟩,
          rebuilt := true, scanned := ([] : Vault).length,
          progressCalls := (getFieldsRebuild DEFAULT_SETTINGS false []).2 })) :=
  ⟨by decide,
    claim3_ttl_policy DEFAULT_SETTINGS false [] 5 ⟨[⟨"x", 1, ["a.md"], none⟩], 0⟩
      (by decide)⟩

/-- **C4 counterexample**: after two incremental creates bump field `b` past
field `a`, a within-TTL `getFields` serves the cache as stored, returning
counts `[2, 3]` -- not sorted by documentCount descending. -/
theorem claim4_counterexample :
    let V₀ : Vault := [⟨"d1.md", some (Fields.cons "a" Value.vNull
        (Fields.cons "b" Value.vNull Fields.nil))⟩,
      ⟨"d2.md", some (Fields.cons "a" Value.vNull Fields.nil)⟩]
    let es := [MutEvent.create ⟨"d3.md", some (Fields.cons "b" Value.vNull Fields.nil)⟩ 0,
      MutEvent.create ⟨"d4.md", some (Fields.cons "b" Value.vNull Fields.nil)⟩ 0]
    let run := runMut DEFAULT_SETTINGS es
      (V₀, (getFields DEFAULT_SETTINGS false V₀ 0 ⟨[], 0⟩).state)
    let r := getFields DEFAULT_SETTINGS false run.1 1 run.2
    (r.result.map (fun f => (f.name, f.count)) = [("a", 2), ("b", 3)]) ∧
    r.rebuilt = false ∧
    ¬ List.Pairwise (fun f g => g.count ≤ f.count) r.result := by decide

/-- **C4 (amended)**: every sequence produced by the full-rebuild branch of
`getFields` is sorted by documentCount descending, and the sort is stable:
for every count value, the records carrying it appear in exactly their
discovery order (the order of the pre-sort field map).  Sequences served
from the cache are returned as stored and, after incremental mutations, may
no longer be sorted (see the counterexample). -/
theorem claim4_rebuild_sorted_stable (st : PluginSettings) (b : Bool) (V : Vault)
    (now : Nat) :
    List.Pairwise (fun f g => g.count ≤ f.count)
      (getFields st b V now ⟨[], 0⟩).result ∧
    ∀ n : Nat,
      (getFields st b V now ⟨[], 0⟩).result.filter (fun f => f.count = n)
        = (applyTopValuesTrim st.analyzeValues
            ((V.foldl (processDoc st b V.length) ⟨[], 0, []⟩).fields)).filter
            (fun f => f.count = n) := by
  have h : (getFields st b V now ⟨[], 0⟩).result = (getFieldsRebuild st b V).1 := by
    rw [getFields_miss_of_empty st b V now ⟨[], 0⟩ rfl]
  rw [h, getFieldsRebuild_fst]
  exact ⟨sortFieldsDesc_sorted _, fun n => sortFieldsDesc_filter_count n _⟩

/-- **C5 counterexample**: deleting the only field-bearing document empties
the index, and the very next `getFields` -- well inside the TTL, on a cache
that was populated and unexpired before the update -- performs a full
rebuild, re-scanning the remaining document. -/
theorem claim5_counterexample :
    let V₀ : Vault := [⟨"a.md", some (Fields.cons "x" Value.vNull Fields.nil)⟩,
      ⟨"b.md", none⟩]
    let s₀ := (getFields DEFAULT_SETTINGS false V₀ 0 ⟨[], 0⟩).state
    let s₁ := applyMutEvent DEFAULT_SETTINGS (MutEvent.delete "a.md") s₀
    let V₁ := applyVault (MutEvent.delete "a.md") V₀
    (s₀.cache ≠ [] ∧ (1 : Nat) - s₀.lastUpdate < DEFAULT_SETTINGS.cacheTTL * 1000) ∧
    (1 : Nat) - s₁.lastUpdate < DEFAULT_SETTINGS.cacheTTL * 1000 ∧
    (getFields DEFAULT_SETTINGS false V₁ 1 s₁).rebuilt = true ∧
    (getFields DEFAULT_SETTINGS false V₁ 1 s₁).scanned = 1 := by decide

/-- **C5 (amended)**: a `getFields` call made immediately after any of the
four incremental mutation paths performs no full rebuild, provided the TTL
(measured from the possibly unrefreshed `lastUpdate`) has not expired AND
the update left the index non-empty; an update that empties the index makes
the next read rebuild even within the TTL (see the counterexample).
`create`/`change` refresh the timestamp exactly when the document has a
header; `delete`/`rename` never refresh it. -/
theorem claim5_no_redundant_rebuild (st : PluginSettings) (b : Bool) (V : Vault)
    (now : Nat) (e : MutEvent) (s : PluginState)
    (hne : (applyMutEvent st e s).cache ≠ [])
    (httl : now - (applyMutEvent st e s).lastUpdate < st.cacheTTL * 1000) :
    getFields st b V now (applyMutEvent st e s) =
      { result := (applyMutEvent st e s).cache, state := applyMutEvent st e s,
        rebuilt := false, scanned := 0, progressCalls := [] } :=
  getFields_hit st b V now _ hne httl

/-- Witness for the amended C5 at a concrete input: a create event on a
populated cache, read 1 ms later. -/
theorem claim5_no_redundant_rebuild_witness :
    ((applyMutEvent DEFAULT_SETTINGS
        (MutEvent.create ⟨"b.md", some (Fields.cons "y" Value.vNull Fields.nil)⟩ 1)
        ⟨[⟨"x", 1, ["a.md"], none⟩], 0⟩).cache ≠ []) ∧
    ((2 : Nat) - (applyMutEvent DEFAULT_SETTINGS
        (MutEvent.create ⟨"b.md", some (Fields.cons "y" Value.vNull Fields.nil)⟩ 1)
        ⟨[⟨"x", 1, ["a.md"], none⟩], 0⟩).lastUpdate <
      DEFAULT_SETTINGS.cacheTTL * 1000) ∧
    getFields DEFAULT_SETTINGS false [] 2
        (applyMutEvent DEFAULT_SETTINGS
          (MutEvent.create ⟨"b.md", some (Fields.cons "y" Value.vNull Fields.nil)⟩ 1)
          ⟨[⟨"x", 1, ["a.md"], none⟩], 0⟩) =
      { result := (applyMutEvent DEFAULT_SETTINGS
            (MutEvent.create ⟨"b.md", some (Fields.cons "y" Value.vNull Fields.nil)⟩ 1)
            ⟨[⟨"x", 1, ["a.md"], none⟩], 0⟩).cache,
        state := applyMutEvent DEFAULT_SETTINGS
          (MutEvent.create ⟨"b.md", some (Fields.cons "y" Value.vNull Fields.nil)⟩ 1)
          ⟨[⟨"x", 1, ["a.md"], none⟩], 0⟩,
        rebuilt := false, scanned := 0, progressCalls := [] } :=
  ⟨by decide, by decide,
    claim5_no_redundant_rebuild DEFAULT_SETTINGS false [] 2
      (MutEvent.create ⟨"b.md", some (Fields.cons "y" Value.vNull Fields.nil)⟩ 1)
      ⟨[⟨"x", 1, ["a.md"], none⟩], 0⟩ (by decide) (by decide)⟩

/-- **C6 counterexample**: on the header `{"": {a: null}}` the code's
flattener emits the key `"a"`, while the dot-join of the ancestor keys
`["", "a"]` is `".a"`: the emitted key is not the dot-joined ancestor path,
so the flattener differs from the specification's dotted reading. -/
theorem claim6_counterexample :
    ((flattenFrontmatter (Fields.cons "" (Value.vObj
        (Fields.cons "a" Value.vNull Fields.nil)) Fields.nil) "").map Prod.fst
      = ["a"]) ∧
    ((flattenSpecDotted (Fields.cons "" (Value.vObj
        (Fields.cons "a" Value.vNull Fields.nil)) Fields.nil) []).map Prod.fst
      = [".a"]) ∧
    flattenFrontmatter (Fields.cons "" (Value.vObj
        (Fields.cons "a" Value.vNull Fields.nil)) Fields.nil) ""
      ≠ flattenSpecDotted (Fields.cons "" (Value.vObj
        (Fields.cons "a" Value.vNull Fields.nil)) Fields.nil) [] := by decide

/-- **C6 (amended)**: the flattener traverses depth-first, recursing exactly
into non-null, non-array object values, treats arrays as leaves, and emits
pairs in the insertion order of the source record; each key is the
dot-join of the ancestor keys EXCEPT that an empty accumulated prefix is
dropped rather than contributing a leading dot (`flattenSpecMerged` is the
spec's traversal with exactly that one change; the counterexample shows the
plain dot-join reading is false). -/
theorem claim6_flatten_matches_spec (fm : Fields) :
    flattenFrontmatter fm "" = flattenSpecMerged fm [] :=
  flattenFrontmatter_eq_merged fm []

/-- **C7**: running the "document created" path twice for the same unchanged
document leaves exactly the records, counts and owning sets of running it
once (the cache components are equal outright, whatever the two
notification times are). -/
theorem claim7_create_idempotent (ign : List String) (d : Doc) (now₁ now₂ : Nat)
    (s : PluginState) :
    (updateCacheOnCreate ign d now₂ (updateCacheOnCreate ign d now₁ s)).cache =
      (updateCacheOnCreate ign d now₁ s).cache := by
  obtain ⟨p, fm⟩ := d
  cases fm with
  | none => rfl
  | some fm =>
    show addEntriesToCache ign p (flattenFrontmatter fm "")
        (addEntriesToCache ign p (flattenFrontmatter fm "") s.cache) = _
    exact addEntriesToCache_id ign p _ _
      (lookupF_addEntries_present ign p (flattenFrontmatter fm "") s.cache)

/-- **C8**: under any fixed settings, starting from the empty index at
plugin activation and running ANY sequence of system events -- full
rebuilds via `getFields`, explicit `clearCache` calls, and the four
incremental mutation paths -- a field name on the ignore list never appears
in the output of a `getFields` call, in particular immediately after a
structural change. -/
theorem claim8_ignored_never_in_output (st : PluginSettings) (es : List SysEvent)
    (V₀ : Vault) (b : Bool) (now : Nat) :
    ∀ f ∈ (getFields st b (runSys st es (V₀, ⟨[], 0⟩)).1 now
        (runSys st es (V₀, ⟨[], 0⟩)).2).result,
      f.name ∉ st.ignoreFields := by
  have hcache := notIgnored_cache_runSys st es V₀ ⟨[], 0⟩ (by simp)
  intro f
  unfold getFields
  split
  · intro hf
    exact hcache f.name (List.mem_map_of_mem _ hf)
  · intro hf
    exact notIgnored_names_rebuild st b _ f.name (List.mem_map_of_mem _ hf)

/-- Witness for C8 at a concrete input: with `"secret"` on the ignore list,
the rebuilt output of a one-document vault contains the `x` record, whose
name is not ignored. -/
theorem claim8_ignored_never_in_output_witness :
    ((⟨"x", 1, ["a.md"], none⟩ : FrontmatterField) ∈
      (getFields ⟨50, ["secret"], 600, false, true⟩ false
        (runSys ⟨50, ["secret"], 600, false, true⟩ []
          ([⟨"a.md", some (Fields.cons "x" Value.vNull
            (Fields.cons "secret" Value.vNull Fields.nil))⟩], ⟨[], 0⟩)).1 0
        (runSys ⟨50, ["secret"], 600, false, true⟩ []
          ([⟨"a.md", some (Fields.cons "x" Value.vNull
            (Fields.cons "secret" Value.vNull Fields.nil))⟩], ⟨[], 0⟩)).2).result) ∧
    (⟨"x", 1, ["a.md"], none⟩ : FrontmatterField).name ∉
      (⟨50, ["secret"], 600, false, true⟩ : PluginSettings).ignoreFields :=
  ⟨by decide,
    claim8_ignored_never_in_output ⟨50, ["secret"], 600, false, true⟩ []
      [⟨"a.md", some (Fields.cons "x" Value.vNull
        (Fields.cons "secret" Value.vNull Fields.nil))⟩] false 0
      ⟨"x", 1, ["a.md"], none⟩ (by decide)⟩

/-- **C9 -- the code at the failing input**: with the show-progress flag
off and a progress callback supplied, a full rebuild over a vault holding
one markdown document without frontmatter still invokes the callback (with
100), because line 151 does not consult `showProgress`; a document WITH
frontmatter respects the flag and produces no call. -/
theorem claim9_progress_called_despite_flag_off :
    ((getFields ⟨50, [], 600, false, false⟩ true [⟨"c.md", none⟩] 0
        ⟨[], 0⟩).progressCalls = [100]) ∧
    ((getFields ⟨50, [], 600, false, false⟩ true
        [⟨"c.md", some (Fields.cons "x" Value.vNull Fields.nil)⟩] 0
        ⟨[], 0⟩).progressCalls = []) := by
  constructor
  · rw [getFields_miss_of_empty _ _ _ _ _ rfl]
    show (getFieldsRebuild ⟨50, [], 600, false, false⟩ true [⟨"c.md", none⟩]).2 = [100]
    simp only [getFieldsRebuild, List.foldl_cons, List.foldl_nil, processDoc]
    norm_num
  · rw [getFields_miss_of_empty _ _ _ _ _ rfl]
    show (getFieldsRebuild ⟨50, [], 600, false, false⟩ true
      [⟨"c.md", some (Fields.cons "x" Value.vNull Fields.nil)⟩]).2 = []
    simp only [getFieldsRebuild, List.foldl_cons, List.foldl_nil, processDoc]
    norm_num

/-- **C10**: whenever the cache is empty -- freshly activated, cleared by
`clearCache`, or because the last rebuild produced an empty index -- every
`getFields` call takes the full-rebuild branch and scans the whole
collection, regardless of `lastUpdate` and of the TTL: an empty index is
never treated as a valid cache. -/
theorem claim10_empty_cache_always_rebuilds (st : PluginSettings) (b : Bool)
    (V : Vault) (now : Nat) (s : PluginState) (h : s.cache = []) :
    getFields st b V now s =
      { result := (getFieldsRebuild st b V).1,
        state := { cache := (getFieldsRebuild st b V).1, lastUpdate := now },
        rebuilt := true, scanned := V.length,
        progressCalls := (getFieldsRebuild st b V).2 } :=
  getFields_miss_of_empty st b V now s h

/-- Witness for C10 at a concrete input: a cache cleared by `clearCache`
(with `lastUpdate` reset moments ago, far inside the TTL) still rebuilds. -/
theorem claim10_empty_cache_always_rebuilds_witness :
    ((clearCache ⟨[⟨"x", 1, ["a.md"], none⟩], 12345⟩).cache = []) ∧
    getFields DEFAULT_SETTINGS false [⟨"b.md", none⟩] 1
        (clearCache ⟨[⟨"x", 1, ["a.md"], none⟩], 12345⟩) =
      { result := (getFieldsRebuild DEFAULT_SETTINGS false [⟨"b.md", none⟩]).1,
        state := ⟨(getFieldsRebuild DEFAULT_SETTINGS false [⟨"b.md", none⟩]).1, 1⟩,
        rebuilt := true, scanned := ([⟨"b.md", none⟩] : Vault).length,
        progressCalls := (getFieldsRebuild DEFAULT_SETTINGS false [⟨"b.md", none⟩]).2 } :=
  ⟨rfl, claim10_empty_cache_always_rebuilds DEFAULT_SETTINGS false [⟨"b.md", none⟩] 1
    (clearCache ⟨[⟨"x", 1, ["a.md"], none⟩], 12345⟩) rfl⟩

end PropStats
